import Mathlib

/-
Shallow embedding of the NAND-Counter tool (src/main.rs) and verification of
the frozen claims about its chip-resolution engine.

Modelling conventions:
* The per-project `HashMap<String, Chip>` is an association list with
  first-match lookup; all maps built by the program have pairwise distinct
  keys, so this agrees with hash-map semantics.
* The file system is an abstract `Storage : String → Option FileContent`
  describing, for each chip name, what reading and JSON-parsing
  `<base_path>/Chips/<name>.json` yields (absent file, unreadable file,
  unparseable JSON, missing/non-array `SubChips`, or the parsed sub-chip
  entries).  The `base_path` argument of the Rust code is folded into the
  storage function, since a single resolution pass uses a single base path.
* Rust's unbounded recursion in `check_chip` is embedded with an explicit
  fuel parameter; the distinguished result `outOfFuel` marks a run that
  needed more recursion depth than the supplied fuel.  Non-termination of
  the Rust code corresponds to `outOfFuel` for every fuel value.
* The `.unwrap()` calls on map lookups are embedded as a distinguished
  `panicked` result.
* Each `check_chip` invocation that goes past the memo check consults the
  file system (`chip_path.exists()` / `read_to_string`); the embedding
  appends the chip's name to a read log at exactly that point, so the log
  counts storage reads per chip name.
-/

set_option maxRecDepth 4000

namespace NandCounter

/-- Per-chip record, mirroring `struct Chip` of `main.rs` (lines 51-55):
`NAND_count` is the resolved gate count, `checked` the resolved flag. -/
structure Chip where
  NAND_count : Nat
  checked : Bool
deriving DecidableEq, Repr

/-- Default chip value, mirroring `impl Default for Chip` (lines 57-64). -/
def Chip.default : Chip := { NAND_count := 0, checked := false }

/-- The chip graph `HashMap<String, Chip>`, as an association list with
first-match lookup. -/
abbrev ChipMap := List (String × Chip)

/-- Lookup by name (`chip_map.get`). -/
def getChip : ChipMap → String → Option Chip
  | [], _ => none
  | (k, c) :: rest, name => if k = name then some c else getChip rest name

/-- Key membership (`chip_map.contains_key`). -/
def containsChip (m : ChipMap) (name : String) : Bool :=
  (getChip m name).isSome

/-- Insert-or-replace (`chip_map.insert`). -/
def insertChip : ChipMap → String → Chip → ChipMap
  | [], name, c => [(name, c)]
  | (k, c0) :: rest, name, c =>
    if k = name then (name, c) :: rest else (k, c0) :: insertChip rest name c

/-- Insert an unresolved placeholder when the key is absent, mirroring
lines 308-310 of `check_chip`. -/
def ensureChip (m : ChipMap) (name : String) : ChipMap :=
  if containsChip m name then m else insertChip m name Chip.default

/-- The memo-hit test of `check_chip` lines 280-284: the entry exists and is
already checked. -/
def memoHit (m : ChipMap) (name : String) : Bool :=
  match getChip m name with
  | some c => c.checked
  | none => false

/-- The fixed table `BUILTIN_CHIPS` of `main.rs` lines 11-35 (18 built-in
identifiers; NAND is handled separately in `add_default_chips`). -/
def BUILTIN_CHIPS : List String :=
  ["4-1BIT", "1-4BIT", "4-8BIT", "8-4BIT", "1-8BIT", "8-1BIT",
   "LED", "7-SEGMENT", "RGB DISPLAY", "DOT DISPLAY",
   "ROM 256x16",
   "CLOCK", "PULSE", "KEY", "3-STATE BUFFER",
   "BUS-1", "BUS-4", "BUS-8"]

/-- Seeding of the chip graph with the primitive catalog, mirroring
`add_default_chips` (lines 165-183): NAND with count 1, every other
built-in with count 0, all pre-checked. -/
def add_default_chips (m : ChipMap) : ChipMap :=
  BUILTIN_CHIPS.foldl (fun acc name => insertChip acc name ⟨0, true⟩)
    (insertChip m "NAND" ⟨1, true⟩)

/-- One sub-chip entry of a chip definition's `SubChips` array: either it has
a `Name` string or it lacks one (lines 302-306). -/
inductive SubEntry where
  | named (name : String)
  | unnamed
deriving DecidableEq, Repr

/-- Outcome of reading and parsing `<base_path>/Chips/<name>.json`
(lines 286-298): read failure, JSON parse failure, `SubChips` absent or not
an array, or the parsed sub-chip entry list. -/
inductive FileContent where
  | unreadable
  | unparseable
  | noSubChips
  | subChips (entries : List SubEntry)
deriving DecidableEq, Repr

/-- Abstract read-only chip store: `none` means no file exists at the
expected location. -/
abbrev Storage := String → Option FileContent

/-- The error strings produced by `check_chip`, one constructor per
`format!` site (lines 288, 292, 294, 298, 306), each carrying the chip name
interpolated into the message. -/
inductive ChipError where
  | fileNotFound (chip : String)
  | readFailed (chip : String)
  | parseFailed (chip : String)
  | subChipsMissing (chip : String)
  | entryMissingName (chip : String)
deriving DecidableEq, Repr

/-- Result of a `check_chip` call: `Ok(())` or `Err(msg)` together with the
final map state and the storage-read log, plus the two artifacts of the
embedding, `panicked` (a `.unwrap()` failed) and `outOfFuel`. -/
inductive Outcome where
  | ok (m : ChipMap) (log : List String)
  | err (e : ChipError) (m : ChipMap) (log : List String)
  | panicked
  | outOfFuel
deriving DecidableEq, Repr

/-- Result of the sub-chip loop of `check_chip` (lines 300-317): on success
it also carries the accumulated `nand_total`. -/
inductive SubsOutcome where
  | ok (m : ChipMap) (log : List String) (total : Nat)
  | err (e : ChipError) (m : ChipMap) (log : List String)
  | panicked
  | outOfFuel
deriving DecidableEq, Repr

/-- The `for subchip in subchips` loop of `check_chip` (lines 302-317),
parameterised by the recursive call `recur`: ensure the named sub-chip has
an entry, recurse when it is unchecked (propagating errors immediately),
and accumulate its `NAND_count`.  An entry without a name fails with the
`entryMissingName` error for the enclosing chip. -/
def check_subs (recur : String → ChipMap → List String → Outcome)
    (chip : String) :
    List SubEntry → ChipMap → List String → Nat → SubsOutcome
  | [], m, log, total => .ok m log total
  | .unnamed :: _, m, log, _ => .err (.entryMissingName chip) m log
  | .named name :: rest, m, log, total =>
    let m1 := ensureChip m name
    match getChip m1 name with
    | none => .panicked
    | some c =>
      if c.checked then
        match getChip m1 name with
        | none => .panicked
        | some c2 => check_subs recur chip rest m1 log (total + c2.NAND_count)
      else
        match recur name m1 log with
        | .ok m2 log2 =>
          match getChip m2 name with
          | none => .panicked
          | some c2 => check_subs recur chip rest m2 log2 (total + c2.NAND_count)
        | .err e m2 log2 => .err e m2 log2
        | .panicked => .panicked
        | .outOfFuel => .outOfFuel

/-- The resolver `check_chip` (lines 274-324), with explicit fuel.  Memo hit
returns success untouched; otherwise the chip's definition is read from
storage (logging the read), its sub-chip list is processed by `check_subs`,
and on success the sum is committed with `checked = true` via
`get_mut(chip).unwrap()`. -/
def check_chip (storage : Storage) :
    Nat → String → ChipMap → List String → Outcome
  | 0, _, _, _ => .outOfFuel
  | fuel + 1, chip, m, log =>
    if memoHit m chip then .ok m log
    else
      let log1 := log ++ [chip]
      match storage chip with
      | none => .err (.fileNotFound chip) m log1
      | some .unreadable => .err (.readFailed chip) m log1
      | some .unparseable => .err (.parseFailed chip) m log1
      | some .noSubChips => .err (.subChipsMissing chip) m log1
      | some (.subChips subs) =>
        match check_subs (fun n m0 log0 => check_chip storage fuel n m0 log0)
            chip subs m log1 0 with
        | .ok m2 log2 total =>
          match getChip m2 chip with
          | none => .panicked
          | some _ => .ok (insertChip m2 chip ⟨total, true⟩) log2
        | .err e m2 log2 => .err e m2 log2
        | .panicked => .panicked
        | .outOfFuel => .outOfFuel

/-- Final map of a terminating `check_chip` call, for stating concrete
facts about results. -/
def Outcome.mapOf : Outcome → Option ChipMap
  | .ok m _ => some m
  | .err _ m _ => some m
  | _ => none

/-- Read log of a terminating `check_chip` call. -/
def Outcome.logOf : Outcome → Option (List String)
  | .ok _ log => some log
  | .err _ _ log => some log
  | _ => none

/-- Error of a failed `check_chip` call. -/
def Outcome.errOf : Outcome → Option ChipError
  | .err e _ _ => some e
  | _ => none

/-- Entry of a given chip in the final map of a terminating `check_chip`
call. -/
def Outcome.entryOf (o : Outcome) (name : String) : Option Chip :=
  o.mapOf.bind (fun m => getChip m name)

/-- Result of the per-chip loop of `scan_project` (lines 256-263). -/
inductive LoopResult where
  | done (m : ChipMap) (log : List String)
  | panicked
  | outOfFuel
deriving DecidableEq, Repr

/-- The `for name in &chips` loop of `scan_project` (lines 256-263): call
`check_chip` on each declared chip in order, catching (logging and
dropping) per-chip errors. -/
def scan_chips (storage : Storage) (fuel : Nat) :
    List String → ChipMap → List String → LoopResult
  | [], m, log => .done m log
  | c :: rest, m, log =>
    match check_chip storage fuel c m log with
    | .ok m1 log1 => scan_chips storage fuel rest m1 log1
    | .err _ m1 log1 => scan_chips storage fuel rest m1 log1
    | .panicked => .panicked
    | .outOfFuel => .outOfFuel

/-- Semantic version triple, modelling `semver::Version` for versions
without prerelease or build metadata (the only forms compared by the
program, whose ceiling is the plain version `2.1.5`). -/
structure SemVer where
  major : Nat
  minor : Nat
  patch : Nat
deriving DecidableEq, Repr

/-- Strict semantic-version comparison `a > b` (major, then minor, then
patch). -/
def semverGt (a b : SemVer) : Bool :=
  if b.major < a.major then true
  else if a.major < b.major then false
  else if b.minor < a.minor then true
  else if a.minor < b.minor then false
  else decide (b.patch < a.patch)

/-- The fixed supported ceiling `Version::parse("2.1.5")` of line 220. -/
def supportedCeiling : SemVer := ⟨2, 1, 5⟩

/-- The two fields of `ProjectDescription.json` that `scan_project` reads:
`DLSVersion_EarliestCompatible` after `.as_str().and_then(Version::parse)`
(`none` when the field is absent, not a string, or unparseable), and
`AllCustomChipNames` (`none` when absent or not an array; each element is
`v.as_str()`, `none` for non-string elements). -/
structure ProjectMeta where
  earliestCompatible : Option SemVer
  allCustomChipNames : Option (List (Option String))
deriving DecidableEq, Repr

/-- State of the project metadata file `ProjectDescription.json`
(lines 187-213): absent, unreadable, invalid JSON, or parsed. -/
inductive MetaFile where
  | absent
  | unreadable
  | unparseable
  | parsed (meta : ProjectMeta)
deriving DecidableEq, Repr

/-- The five skip diagnostics of `scan_project`, one per `return None`
site (lines 188-246). -/
inductive SkipReason where
  | missingMeta
  | metaReadFailed
  | metaParseFailed
  | incompatibleVersion
  | missingVersion
  | noChips
deriving DecidableEq, Repr

/-- The aggregate result `ProjectScanResult` (lines 327-331). -/
structure ProjectScanResult where
  project : String
  chip_map : ChipMap
  total_nand : Nat
deriving DecidableEq, Repr

/-- Result of a `scan_project` call: `Some(result)`, `None` with its skip
diagnostic, or an embedding artifact propagated from `check_chip`. -/
inductive ScanOutcome where
  | ok (r : ProjectScanResult)
  | skip (s : SkipReason)
  | panicked
  | outOfFuel
deriving DecidableEq, Repr

/-- The declared custom-chip list extracted from the metadata (lines
235-241): `as_array().unwrap_or(&empty)` then `filter_map(as_str)`. -/
def metaChips (pm : ProjectMeta) : List String :=
  (pm.allCustomChipNames.getD []).filterMap id

/-- Insertion of the declared chip names as unresolved placeholders,
mirroring `chip_map.entry(name).or_default()` (lines 252-254). -/
def seedDeclared (chips : List String) (m : ChipMap) : ChipMap :=
  chips.foldl (fun acc name => ensureChip acc name) m

/-- The displayed total, line 265: sum of `NAND_count` over every entry of
the final map. -/
def totalNand (m : ChipMap) : Nat :=
  (m.map (fun p => p.2.NAND_count)).sum

/-- The project scanner `scan_project` (lines 185-272): skip checks in
source order, then seed the primitive catalog and the declared chips, run
the per-chip loop, and sum every entry's `NAND_count`. -/
def scan_project (storage : Storage) (fuel : Nat) (projectName : String)
    (meta : MetaFile) : ScanOutcome :=
  match meta with
  | .absent => .skip .missingMeta
  | .unreadable => .skip .metaReadFailed
  | .unparseable => .skip .metaParseFailed
  | .parsed pm =>
    match pm.earliestCompatible with
    | some v =>
      if semverGt v supportedCeiling then .skip .incompatibleVersion
      else
        let chips := metaChips pm
        if chips.isEmpty then .skip .noChips
        else
          let m1 := seedDeclared chips (add_default_chips [])
          match scan_chips storage fuel chips m1 [] with
          | .done m2 _ => .ok ⟨projectName, m2, totalNand m2⟩
          | .panicked => .panicked
          | .outOfFuel => .outOfFuel
    | none => .skip .missingVersion

/-- Scan result of a successful `scan_project` call. -/
def ScanOutcome.resultOf : ScanOutcome → Option ProjectScanResult
  | .ok r => some r
  | _ => none

/-- Displayed total of a successful `scan_project` call. -/
def ScanOutcome.totalOf (o : ScanOutcome) : Option Nat :=
  o.resultOf.map (fun r => r.total_nand)

/-- Entry of a given chip in the final graph of a successful `scan_project`
call. -/
def ScanOutcome.entryOf (o : ScanOutcome) (name : String) : Option Chip :=
  o.resultOf.bind (fun r => getChip r.chip_map name)

/-- Sum of the sub-chip gate counts of a definition's entry list, read from
a given map in declared order, one additive contribution per occurrence
(an absent entry reads as 0; in the theorems below every summed name is
present). -/
def sumSubs (m : ChipMap) : List SubEntry → Nat
  | [] => 0
  | .named n :: rest =>
    (match getChip m n with
     | some c => c.NAND_count
     | none => 0) + sumSubs m rest
  | .unnamed :: rest => sumSubs m rest

/-- Names carried by the entries of a sub-chip list. -/
def subNames : List SubEntry → List String
  | [] => []
  | .named n :: rest => n :: subNames rest
  | .unnamed :: rest => subNames rest

/-- Modelled from the spec's words (claim C3): the displayed total as the
spec's §3 headline describes it, a sum of `gate_count` over the entries of
the final graph that are not built-in/primitive, where the primitive
catalog consists of the 18 `BUILTIN_CHIPS` identifiers plus NAND.  It is
compared against the `totalNand` computed by the source. -/
def specTotalNonPrimitive (m : ChipMap) : Nat :=
  ((m.filter (fun p => !(BUILTIN_CHIPS.contains p.1) && !(p.1 == "NAND"))).map
    (fun p => p.2.NAND_count)).sum

/-- Concrete project: the diamond of §8, `A → {B, C}`, `B → {D}`,
`C → {D}`, `D → {NAND}`. -/
def storageDiamond : Storage := fun n =>
  if n = "A" then some (.subChips [.named "B", .named "C"])
  else if n = "B" then some (.subChips [.named "D"])
  else if n = "C" then some (.subChips [.named "D"])
  else if n = "D" then some (.subChips [.named "NAND"])
  else none

/-- Concrete project: a chip `P` whose sub-chip list is `[A, A]`, with
`A → {NAND}`. -/
def storageTwice : Storage := fun n =>
  if n = "P" then some (.subChips [.named "A", .named "A"])
  else if n = "A" then some (.subChips [.named "NAND"])
  else none

/-- Concrete project: a single chip `X` whose only sub-chip is NAND. -/
def storageSingle : Storage := fun n =>
  if n = "X" then some (.subChips [.named "NAND"]) else none

/-- Metadata declaring the single custom chip `X` at exactly the supported
ceiling version. -/
def metaSingle : MetaFile := .parsed ⟨some ⟨2, 1, 5⟩, some [some "X"]⟩

/-- Concrete project: `X` references itself transitively (its second
sub-chip is `X` itself) but its first sub-chip `Y` has no definition
file. -/
def storageSelfAfterBad : Storage := fun n =>
  if n = "X" then some (.subChips [.named "Y", .named "X"]) else none

/-- Concrete project: `L` directly references itself in first position. -/
def storageSelfLoop : Storage := fun n =>
  if n = "L" then some (.subChips [.named "L"]) else none

/-- Concrete project for the error-recovery scan: declared chips `X` (no
definition file) and `Y → {NAND, NAND}`. -/
def storageBrokenX : Storage := fun n =>
  if n = "Y" then some (.subChips [.named "NAND", .named "NAND"]) else none

/-- Metadata declaring `X` then `Y`. -/
def metaBrokenX : MetaFile := .parsed ⟨some ⟨2, 1, 5⟩, some [some "X", some "Y"]⟩

/-- Concrete storage with a chip `Z` that has an empty sub-chip list. -/
def storageEmptyZ : Storage := fun n =>
  if n = "Z" then some (.subChips []) else none

/-- Rank function witnessing acyclicity of the diamond project. -/
def rankDiamond (n : String) : Nat :=
  if n = "A" then 3 else if n = "B" then 2 else if n = "C" then 2
  else if n = "D" then 1 else 0

/-- One map-evolution step as seen by a fixed name: its entry is either
untouched or freshly created as the unresolved placeholder. -/
def entryEvolves (m m' : ChipMap) (x : String) : Prop :=
  getChip m' x = getChip m x ∨
    (getChip m x = none ∧ getChip m' x = some Chip.default)

/-- Invariant describing how the primitive catalog sits inside every map
the program builds: each of the 18 built-ins resolves to the checked entry
`(0, true)` and every map entry carrying a built-in key holds that value;
the NAND key occurs exactly once, holding the checked entry `(1, true)`. -/
def PrimInv (m : ChipMap) : Prop :=
  (∀ b ∈ BUILTIN_CHIPS, getChip m b = some ⟨0, true⟩) ∧
  (∀ p ∈ m, p.1 ∈ BUILTIN_CHIPS → p.2 = ⟨0, true⟩) ∧
  (m.filter (fun p => p.1 == "NAND") = [("NAND", ⟨1, true⟩)]) ∧
  getChip m "NAND" = some ⟨1, true⟩

/-- Total contributed by the entries carrying built-in keys. -/
def builtinSum (m : ChipMap) : Nat :=
  ((m.filter (fun p => BUILTIN_CHIPS.contains p.1)).map
    (fun p => p.2.NAND_count)).sum

/-- Total contributed by the NAND-keyed entries (NAND is not in
`BUILTIN_CHIPS`). -/
def nandKeySum (m : ChipMap) : Nat :=
  ((m.filter (fun p => !(BUILTIN_CHIPS.contains p.1) && p.1 == "NAND")).map
    (fun p => p.2.NAND_count)).sum

theorem getChip_insertChip_self (m : ChipMap) (k : String) (c : Chip) :
    getChip (insertChip m k c) k = some c := by
  induction m with
  | nil => simp [insertChip, getChip]
  | cons p rest ih =>
    obtain ⟨k0, c0⟩ := p
    by_cases h : k0 = k
    · subst h; simp [insertChip, getChip]
    · simp [insertChip, getChip, h, ih]

theorem getChip_insertChip_ne (m : ChipMap) (k y : String) (c : Chip)
    (h : y ≠ k) : getChip (insertChip m k c) y = getChip m y := by
  induction m with
  | nil => simp [insertChip, getChip, Ne.symm h]
  | cons p rest ih =>
    obtain ⟨k0, c0⟩ := p
    by_cases hk : k0 = k
    · subst hk
      simp [insertChip, getChip, Ne.symm h]
    · simp only [insertChip, if_neg hk, getChip]
      by_cases hy : k0 = y
      · simp [hy]
      · simp [hy, ih]

theorem ensureChip_eq_of_some (m : ChipMap) (x : String) (c : Chip)
    (h : getChip m x = some c) : ensureChip m x = m := by
  simp [ensureChip, containsChip, h]

theorem ensureChip_eq_of_none (m : ChipMap) (x : String)
    (h : getChip m x = none) :
    ensureChip m x = insertChip m x Chip.default := by
  simp [ensureChip, containsChip, h]

theorem getChip_ensureChip_self (m : ChipMap) (x : String) :
    getChip (ensureChip m x) x = some ((getChip m x).getD Chip.default) := by
  cases h : getChip m x with
  | some c => rw [ensureChip_eq_of_some m x c h, h]; rfl
  | none => rw [ensureChip_eq_of_none m x h, getChip_insertChip_self]; rfl

theorem getChip_ensureChip_ne (m : ChipMap) (x y : String) (h : y ≠ x) :
    getChip (ensureChip m x) y = getChip m y := by
  cases hx : getChip m x with
  | some c => rw [ensureChip_eq_of_some m x c hx]
  | none => rw [ensureChip_eq_of_none m x hx, getChip_insertChip_ne _ _ _ _ h]

theorem getChip_ensureChip_of_some (m : ChipMap) (x y : String) (c : Chip)
    (h : getChip m y = some c) : getChip (ensureChip m x) y = some c := by
  by_cases hxy : y = x
  · subst hxy; rw [getChip_ensureChip_self, h]; rfl
  · rw [getChip_ensureChip_ne m x y hxy, h]

theorem entryEvolves_refl (m : ChipMap) (x : String) : entryEvolves m m x :=
  Or.inl rfl

theorem entryEvolves_trans {m1 m2 m3 : ChipMap} {x : String}
    (h12 : entryEvolves m1 m2 x) (h23 : entryEvolves m2 m3 x) :
    entryEvolves m1 m3 x := by
  rcases h12 with h12 | ⟨h1, h2⟩
  · rcases h23 with h23 | ⟨h2, h3⟩
    · exact Or.inl (h23.trans h12)
    · exact Or.inr ⟨h12 ▸ h2, h3⟩
  · rcases h23 with h23 | ⟨h2', h3⟩
    · exact Or.inr ⟨h1, h23.trans h2⟩
    · rw [h2] at h2'; exact absurd h2' (by simp)

theorem entryEvolves_ensure (m : ChipMap) (x y : String) :
    entryEvolves m (ensureChip m y) x := by
  by_cases hxy : x = y
  · subst hxy
    cases h : getChip m x with
    | some c => rw [ensureChip_eq_of_some m x c h]; exact entryEvolves_refl m x
    | none =>
      exact Or.inr ⟨h, by rw [ensureChip_eq_of_none m x h, getChip_insertChip_self]⟩
  · exact Or.inl (getChip_ensureChip_ne m y x hxy)

theorem memoHit_eq_false_of_entryEvolves {m m' : ChipMap} {x : String}
    (h : entryEvolves m m' x) (hm : memoHit m x = false) :
    memoHit m' x = false := by
  rcases h with h | ⟨h1, h2⟩
  · simpa [memoHit, h] using hm
  · simp [memoHit, h2, Chip.default]

theorem memoHit_eq_true_iff (m : ChipMap) (x : String) :
    memoHit m x = true ↔ ∃ c, getChip m x = some c ∧ c.checked = true := by
  unfold memoHit
  cases h : getChip m x with
  | some c => simp
  | none => simp

theorem memoHit_eq_false_of_checked_absent {m : ChipMap} {x : String}
    (h : getChip m x = none) : memoHit m x = false := by
  simp [memoHit, h]

theorem checked_ne_of_memoHit_false {m : ChipMap} {x : String} {c : Chip}
    (h : getChip m x = some c) (hm : memoHit m x = false) :
    c.checked = false := by
  simpa [memoHit, h] using hm

/-- Entries that are already checked pass through one run of the sub-chip
loop untouched, provided every recursive call preserves them. -/
theorem check_subs_preserves_checked
    (recur : String → ChipMap → List String → Outcome)
    (Hrec : ∀ n m0 log0 m1 log1,
      ((∃ e, recur n m0 log0 = .err e m1 log1) ∨ recur n m0 log0 = .ok m1 log1) →
      ∀ x c, getChip m0 x = some c → c.checked = true → getChip m1 x = some c) :
    ∀ (l : List SubEntry) (chip : String) (m : ChipMap) (log : List String)
      (t : Nat) (m' : ChipMap) (log' : List String),
      ((∃ e, check_subs recur chip l m log t = .err e m' log') ∨
        (∃ t', check_subs recur chip l m log t = .ok m' log' t')) →
      ∀ x c, getChip m x = some c → c.checked = true → getChip m' x = some c := by
  intro l
  induction l with
  | nil =>
    intro chip m log t m' log' hres x c hx hc
    rcases hres with ⟨e, he⟩ | ⟨t', ho⟩
    · simp [check_subs] at he
    · simp only [check_subs, SubsOutcome.ok.injEq] at ho
      rw [← ho.1]; exact hx
  | cons s rest ih =>
    cases s with
    | unnamed =>
      intro chip m log t m' log' hres x c hx hc
      rcases hres with ⟨e, he⟩ | ⟨t', ho⟩
      · simp only [check_subs, SubsOutcome.err.injEq] at he
        rw [← he.2.1]; exact hx
      · simp [check_subs] at ho
    | named name =>
      intro chip m log t m' log' hres x c hx hc
      have hx1 : getChip (ensureChip m name) x = some c :=
        getChip_ensureChip_of_some m name x c hx
      have hself := getChip_ensureChip_self m name
      simp only [check_subs, hself] at hres
      by_cases hchk : ((getChip m name).getD Chip.default).checked
      · rw [if_pos hchk] at hres
        exact ih chip (ensureChip m name) log _ m' log' hres x c hx1 hc
      · rw [if_neg hchk] at hres
        cases hrec : recur name (ensureChip m name) log with
        | ok m2 log2 =>
          rw [hrec] at hres
          dsimp only at hres
          have hx2 : getChip m2 x = some c :=
            Hrec name (ensureChip m name) log m2 log2 (Or.inr hrec) x c hx1 hc
          cases hg2 : getChip m2 name with
          | none =>
            rw [hg2] at hres
            rcases hres with ⟨e, he⟩ | ⟨t', ho⟩
            · simp at he
            · simp at ho
          | some c2 =>
            rw [hg2] at hres
            exact ih chip m2 log2 _ m' log' hres x c hx2 hc
        | err e m2 log2 =>
          rw [hrec] at hres
          dsimp only at hres
          rcases hres with ⟨e', he⟩ | ⟨t', ho⟩
          · simp only [SubsOutcome.err.injEq] at he
            rw [← he.2.1]
            exact Hrec name (ensureChip m name) log m2 log2 (Or.inl ⟨e, hrec⟩) x c hx1 hc
          · simp at ho
        | panicked =>
          rw [hrec] at hres
          rcases hres with ⟨e', he⟩ | ⟨t', ho⟩
          · simp at he
          · simp at ho
        | outOfFuel =>
          rw [hrec] at hres
          rcases hres with ⟨e', he⟩ | ⟨t', ho⟩
          · simp at he
          · simp at ho

theorem check_chip_zero (storage : Storage) (chip : String) (m : ChipMap)
    (log : List String) : check_chip storage 0 chip m log = .outOfFuel := rfl

theorem check_chip_memoTrue (storage : Storage) (fuel : Nat) (chip : String)
    (m : ChipMap) (log : List String) (h : memoHit m chip = true) :
    check_chip storage (fuel + 1) chip m log = .ok m log := by
  simp [check_chip, h]

theorem check_chip_fileNotFound (storage : Storage) (fuel : Nat)
    (chip : String) (m : ChipMap) (log : List String)
    (h : memoHit m chip = false) (hst : storage chip = none) :
    check_chip storage (fuel + 1) chip m log =
      .err (.fileNotFound chip) m (log ++ [chip]) := by
  simp [check_chip, h, hst]

theorem check_chip_unreadable (storage : Storage) (fuel : Nat)
    (chip : String) (m : ChipMap) (log : List String)
    (h : memoHit m chip = false) (hst : storage chip = some .unreadable) :
    check_chip storage (fuel + 1) chip m log =
      .err (.readFailed chip) m (log ++ [chip]) := by
  simp [check_chip, h, hst]

theorem check_chip_unparseable (storage : Storage) (fuel : Nat)
    (chip : String) (m : ChipMap) (log : List String)
    (h : memoHit m chip = false) (hst : storage chip = some .unparseable) :
    check_chip storage (fuel + 1) chip m log =
      .err (.parseFailed chip) m (log ++ [chip]) := by
  simp [check_chip, h, hst]

theorem check_chip_noSubChips (storage : Storage) (fuel : Nat)
    (chip : String) (m : ChipMap) (log : List String)
    (h : memoHit m chip = false) (hst : storage chip = some .noSubChips) :
    check_chip storage (fuel + 1) chip m log =
      .err (.subChipsMissing chip) m (log ++ [chip]) := by
  simp [check_chip, h, hst]

theorem check_chip_subChips (storage : Storage) (fuel : Nat)
    (chip : String) (m : ChipMap) (log : List String) (subs : List SubEntry)
    (h : memoHit m chip = false) (hst : storage chip = some (.subChips subs)) :
    check_chip storage (fuel + 1) chip m log =
      match check_subs (fun n m0 log0 => check_chip storage fuel n m0 log0)
          chip subs m (log ++ [chip]) 0 with
      | .ok m2 log2 total =>
        match getChip m2 chip with
        | none => .panicked
        | some _ => .ok (insertChip m2 chip ⟨total, true⟩) log2
      | .err e m2 log2 => .err e m2 log2
      | .panicked => .panicked
      | .outOfFuel => .outOfFuel := by
  simp [check_chip, h, hst]

/-- Checked entries are never rewritten by a terminating `check_chip`
call: the `NAND_count` of a resolved chip stays exactly as it was. -/
theorem check_chip_preserves_checked (storage : Storage) :
    ∀ (fuel : Nat) (chip : String) (m : ChipMap) (log : List String)
      (m' : ChipMap) (log' : List String),
      ((∃ e, check_chip storage fuel chip m log = .err e m' log') ∨
        check_chip storage fuel chip m log = .ok m' log') →
      ∀ x c, getChip m x = some c → c.checked = true → getChip m' x = some c := by
  intro fuel
  induction fuel with
  | zero =>
    intro chip m log m' log' hres x c hx hc
    rcases hres with ⟨e, he⟩ | ho
    · simp [check_chip_zero] at he
    · simp [check_chip_zero] at ho
  | succ fuel ih =>
    intro chip m log m' log' hres x c hx hc
    cases hmh : memoHit m chip with
    | true =>
      rw [check_chip_memoTrue storage fuel chip m log hmh] at hres
      rcases hres with ⟨e, he⟩ | ho
      · simp at he
      · simp only [Outcome.ok.injEq] at ho; rw [← ho.1]; exact hx
    | false =>
      cases hst : storage chip with
      | none =>
        rw [check_chip_fileNotFound storage fuel chip m log hmh hst] at hres
        rcases hres with ⟨e, he⟩ | ho
        · simp only [Outcome.err.injEq] at he; rw [← he.2.1]; exact hx
        · simp at ho
      | some fc =>
        cases fc with
        | unreadable =>
          rw [check_chip_unreadable storage fuel chip m log hmh hst] at hres
          rcases hres with ⟨e, he⟩ | ho
          · simp only [Outcome.err.injEq] at he; rw [← he.2.1]; exact hx
          · simp at ho
        | unparseable =>
          rw [check_chip_unparseable storage fuel chip m log hmh hst] at hres
          rcases hres with ⟨e, he⟩ | ho
          · simp only [Outcome.err.injEq] at he; rw [← he.2.1]; exact hx
          · simp at ho
        | noSubChips =>
          rw [check_chip_noSubChips storage fuel chip m log hmh hst] at hres
          rcases hres with ⟨e, he⟩ | ho
          · simp only [Outcome.err.injEq] at he; rw [← he.2.1]; exact hx
          · simp at ho
        | subChips subs =>
          rw [check_chip_subChips storage fuel chip m log subs hmh hst] at hres
          have Hrec : ∀ n m0 log0 m1 log1,
              ((∃ e, check_chip storage fuel n m0 log0 = .err e m1 log1) ∨
                check_chip storage fuel n m0 log0 = .ok m1 log1) →
              ∀ y d, getChip m0 y = some d → d.checked = true →
                getChip m1 y = some d :=
            fun n m0 log0 m1 log1 h => ih n m0 log0 m1 log1 h
          cases hsub : check_subs
              (fun n m0 log0 => check_chip storage fuel n m0 log0)
              chip subs m (log ++ [chip]) 0 with
          | ok m2 log2 total =>
            rw [hsub] at hres
            dsimp only at hres
            have hx2 : getChip m2 x = some c :=
              check_subs_preserves_checked _ Hrec subs chip m (log ++ [chip]) 0
                m2 log2 (Or.inr ⟨total, hsub⟩) x c hx hc
            cases hg : getChip m2 chip with
            | none =>
              rw [hg] at hres
              rcases hres with ⟨e, he⟩ | ho
              · simp at he
              · simp at ho
            | some c0 =>
              rw [hg] at hres
              rcases hres with ⟨e, he⟩ | ho
              · simp at he
              · simp only [Outcome.ok.injEq] at ho
                rw [← ho.1]
                have hxchip : x ≠ chip := by
                  intro hxeq
                  subst hxeq
                  have hfalse := checked_ne_of_memoHit_false hx hmh
                  rw [hc] at hfalse
                  exact Bool.noConfusion hfalse
                rw [getChip_insertChip_ne _ _ _ _ hxchip]
                exact hx2
          | err e m2 log2 =>
            rw [hsub] at hres
            dsimp only at hres
            rcases hres with ⟨e', he⟩ | ho
            · simp only [Outcome.err.injEq] at he
              rw [← he.2.1]
              exact check_subs_preserves_checked _ Hrec subs chip m
                (log ++ [chip]) 0 m2 log2 (Or.inl ⟨e, hsub⟩) x c hx hc
            · simp at ho
          | panicked =>
            rw [hsub] at hres
            rcases hres with ⟨e, he⟩ | ho
            · simp at he
            · simp at ho
          | outOfFuel =>
            rw [hsub] at hres
            rcases hres with ⟨e, he⟩ | ho
            · simp at he
            · simp at ho

/-- A successful `check_chip` call leaves its chip present and checked in
the resulting map (memo hit or commit point). -/
theorem check_chip_post_ok (storage : Storage) :
    ∀ (fuel : Nat) (chip : String) (m : ChipMap) (log : List String)
      (m' : ChipMap) (log' : List String),
      check_chip storage fuel chip m log = .ok m' log' →
      ∃ c, getChip m' chip = some c ∧ c.checked = true := by
  intro fuel chip m log m' log' h
  cases fuel with
  | zero => simp [check_chip_zero] at h
  | succ fuel =>
    cases hmh : memoHit m chip with
    | true =>
      rw [check_chip_memoTrue storage fuel chip m log hmh] at h
      simp only [Outcome.ok.injEq] at h
      rcases (memoHit_eq_true_iff m chip).mp hmh with ⟨c, hg, hc⟩
      exact ⟨c, h.1 ▸ hg, hc⟩
    | false =>
      cases hst : storage chip with
      | none =>
        rw [check_chip_fileNotFound storage fuel chip m log hmh hst] at h
        simp at h
      | some fc =>
        cases fc with
        | unreadable =>
          rw [check_chip_unreadable storage fuel chip m log hmh hst] at h
          simp at h
        | unparseable =>
          rw [check_chip_unparseable storage fuel chip m log hmh hst] at h
          simp at h
        | noSubChips =>
          rw [check_chip_noSubChips storage fuel chip m log hmh hst] at h
          simp at h
        | subChips subs =>
          rw [check_chip_subChips storage fuel chip m log subs hmh hst] at h
          cases hsub : check_subs
              (fun n m0 log0 => check_chip storage fuel n m0 log0)
              chip subs m (log ++ [chip]) 0 with
          | ok m2 log2 total =>
            rw [hsub] at h
            dsimp only at h
            cases hg : getChip m2 chip with
            | none => rw [hg] at h; simp at h
            | some c0 =>
              rw [hg] at h
              simp only [Outcome.ok.injEq] at h
              exact ⟨⟨total, true⟩, by rw [← h.1, getChip_insertChip_self], rfl⟩
          | err e m2 log2 => rw [hsub] at h; simp at h
          | panicked => rw [hsub] at h; simp at h
          | outOfFuel => rw [hsub] at h; simp at h

theorem getChip_insertChip_isSome (m : ChipMap) (k x : String) (c : Chip)
    (h : (getChip m x).isSome = true) :
    (getChip (insertChip m k c) x).isSome = true := by
  by_cases hx : x = k
  · subst hx; rw [getChip_insertChip_self]; rfl
  · rw [getChip_insertChip_ne _ _ _ _ hx]; exact h

theorem getChip_ensureChip_isSome (m : ChipMap) (y x : String)
    (h : (getChip m x).isSome = true) :
    (getChip (ensureChip m y) x).isSome = true := by
  by_cases hx : x = y
  · subst hx; rw [getChip_ensureChip_self]; rfl
  · rw [getChip_ensureChip_ne _ _ _ hx]; exact h

/-- The sub-chip loop never panics and never loses map keys, provided the
recursive call has both properties; every name it recurses on has been
inserted first (lines 308-310), which is what rules the panics out. -/
theorem check_subs_keys (recur : String → ChipMap → List String → Outcome)
    (Hpersist : ∀ n m0 log0 m1 log1,
      ((∃ e, recur n m0 log0 = .err e m1 log1) ∨ recur n m0 log0 = .ok m1 log1) →
      ∀ x, (getChip m0 x).isSome = true → (getChip m1 x).isSome = true)
    (Hnopanic : ∀ n m0 log0, (getChip m0 n).isSome = true →
      recur n m0 log0 ≠ .panicked) :
    ∀ (l : List SubEntry) (chip : String) (m : ChipMap) (log : List String)
      (t : Nat),
      (check_subs recur chip l m log t ≠ .panicked) ∧
      (∀ m' log', ((∃ e, check_subs recur chip l m log t = .err e m' log') ∨
          (∃ t', check_subs recur chip l m log t = .ok m' log' t')) →
        ∀ x, (getChip m x).isSome = true → (getChip m' x).isSome = true) := by
  intro l
  induction l with
  | nil =>
    intro chip m log t
    constructor
    · simp [check_subs]
    · intro m' log' hres x hx
      rcases hres with ⟨e, he⟩ | ⟨t', ho⟩
      · simp [check_subs] at he
      · simp only [check_subs, SubsOutcome.ok.injEq] at ho
        rw [← ho.1]; exact hx
  | cons s rest ih =>
    cases s with
    | unnamed =>
      intro chip m log t
      constructor
      · simp [check_subs]
      · intro m' log' hres x hx
        rcases hres with ⟨e, he⟩ | ⟨t', ho⟩
        · simp only [check_subs, SubsOutcome.err.injEq] at he
          rw [← he.2.1]; exact hx
        · simp [check_subs] at ho
    | named name =>
      intro chip m log t
      have hself := getChip_ensureChip_self m name
      have hname1 : (getChip (ensureChip m name) name).isSome = true := by
        rw [hself]; rfl
      by_cases hchk : ((getChip m name).getD Chip.default).checked
      · constructor
        · simp only [check_subs, hself]
          rw [if_pos hchk]
          exact (ih chip (ensureChip m name) log _).1
        · intro m' log' hres x hx
          simp only [check_subs, hself] at hres
          rw [if_pos hchk] at hres
          exact (ih chip (ensureChip m name) log _).2 m' log' hres x
            (getChip_ensureChip_isSome m name x hx)
      · cases hrec : recur name (ensureChip m name) log with
        | ok m2 log2 =>
          have hname2 : (getChip m2 name).isSome = true :=
            Hpersist name (ensureChip m name) log m2 log2 (Or.inr hrec) name hname1
          cases hg2 : getChip m2 name with
          | none => rw [hg2] at hname2; simp at hname2
          | some c2 =>
            constructor
            · simp only [check_subs, hself]
              rw [if_neg hchk, hrec]
              dsimp only
              rw [hg2]
              exact (ih chip m2 log2 _).1
            · intro m' log' hres x hx
              simp only [check_subs, hself] at hres
              rw [if_neg hchk, hrec] at hres
              dsimp only at hres
              rw [hg2] at hres
              exact (ih chip m2 log2 _).2 m' log' hres x
                (Hpersist name (ensureChip m name) log m2 log2 (Or.inr hrec) x
                  (getChip_ensureChip_isSome m name x hx))
        | err e m2 log2 =>
          constructor
          · simp only [check_subs, hself]
            rw [if_neg hchk, hrec]
            simp
          · intro m' log' hres x hx
            simp only [check_subs, hself] at hres
            rw [if_neg hchk, hrec] at hres
            dsimp only at hres
            rcases hres with ⟨e', he⟩ | ⟨t', ho⟩
            · simp only [SubsOutcome.err.injEq] at he
              rw [← he.2.1]
              exact Hpersist name (ensureChip m name) log m2 log2
                (Or.inl ⟨e, hrec⟩) x (getChip_ensureChip_isSome m name x hx)
            · simp at ho
        | panicked => exact absurd hrec (Hnopanic name (ensureChip m name) log hname1)
        | outOfFuel =>
          constructor
          · simp only [check_subs, hself]
            rw [if_neg hchk, hrec]
            simp
          · intro m' log' hres x hx
            simp only [check_subs, hself] at hres
            rw [if_neg hchk, hrec] at hres
            dsimp only at hres
            rcases hres with ⟨e', he⟩ | ⟨t', ho⟩
            · simp at he
            · simp at ho

/-- A `check_chip` call on a name that is present in the map never hits the
`.unwrap()` panic, and no terminating call ever removes a key from the
map. -/
theorem check_chip_keys (storage : Storage) :
    ∀ (fuel : Nat) (chip : String) (m : ChipMap) (log : List String),
      (∀ m' log', ((∃ e, check_chip storage fuel chip m log = .err e m' log') ∨
          check_chip storage fuel chip m log = .ok m' log') →
        ∀ x, (getChip m x).isSome = true → (getChip m' x).isSome = true) ∧
      ((getChip m chip).isSome = true →
        check_chip storage fuel chip m log ≠ .panicked) := by
  intro fuel
  induction fuel with
  | zero =>
    intro chip m log
    constructor
    · intro m' log' hres x hx
      rcases hres with ⟨e, he⟩ | ho
      · simp [check_chip_zero] at he
      · simp [check_chip_zero] at ho
    · intro _; simp [check_chip_zero]
  | succ fuel ih =>
    intro chip m log
    have Hpersist : ∀ n m0 log0 m1 log1,
        ((∃ e, check_chip storage fuel n m0 log0 = .err e m1 log1) ∨
          check_chip storage fuel n m0 log0 = .ok m1 log1) →
        ∀ x, (getChip m0 x).isSome = true → (getChip m1 x).isSome = true :=
      fun n m0 log0 m1 log1 h => (ih n m0 log0).1 m1 log1 h
    have Hnopanic : ∀ n m0 log0, (getChip m0 n).isSome = true →
        check_chip storage fuel n m0 log0 ≠ .panicked :=
      fun n m0 log0 h => (ih n m0 log0).2 h
    cases hmh : memoHit m chip with
    | true =>
      rw [check_chip_memoTrue storage fuel chip m log hmh]
      constructor
      · intro m' log' hres x hx
        rcases hres with ⟨e, he⟩ | ho
        · simp at he
        · simp only [Outcome.ok.injEq] at ho; rw [← ho.1]; exact hx
      · intro _; simp
    | false =>
      cases hst : storage chip with
      | none =>
        rw [check_chip_fileNotFound storage fuel chip m log hmh hst]
        constructor
        · intro m' log' hres x hx
          rcases hres with ⟨e, he⟩ | ho
          · simp only [Outcome.err.injEq] at he; rw [← he.2.1]; exact hx
          · simp at ho
        · intro _; simp
      | some fc =>
        cases fc with
        | unreadable =>
          rw [check_chip_unreadable storage fuel chip m log hmh hst]
          constructor
          · intro m' log' hres x hx
            rcases hres with ⟨e, he⟩ | ho
            · simp only [Outcome.err.injEq] at he; rw [← he.2.1]; exact hx
            · simp at ho
          · intro _; simp
        | unparseable =>
          rw [check_chip_unparseable storage fuel chip m log hmh hst]
          constructor
          · intro m' log' hres x hx
            rcases hres with ⟨e, he⟩ | ho
            · simp only [Outcome.err.injEq] at he; rw [← he.2.1]; exact hx
            · simp at ho
          · intro _; simp
        | noSubChips =>
          rw [check_chip_noSubChips storage fuel chip m log hmh hst]
          constructor
          · intro m' log' hres x hx
            rcases hres with ⟨e, he⟩ | ho
            · simp only [Outcome.err.injEq] at he; rw [← he.2.1]; exact hx
            · simp at ho
          · intro _; simp
        | subChips subs =>
          rw [check_chip_subChips storage fuel chip m log subs hmh hst]
          have hsubs := check_subs_keys
            (fun n m0 log0 => check_chip storage fuel n m0 log0)
            Hpersist Hnopanic subs chip m (log ++ [chip]) 0
          cases hsub : check_subs
              (fun n m0 log0 => check_chip storage fuel n m0 log0)
              chip subs m (log ++ [chip]) 0 with
          | ok m2 log2 total =>
            have hkeys2 : ∀ x, (getChip m x).isSome = true →
                (getChip m2 x).isSome = true :=
              fun x hx => hsubs.2 m2 log2 (Or.inr ⟨total, hsub⟩) x hx
            dsimp only
            cases hg : getChip m2 chip with
            | none =>
              constructor
              · intro m' log' hres x hx
                rcases hres with ⟨e, he⟩ | ho
                · simp at he
                · simp at ho
              · intro hchip
                have := hkeys2 chip hchip
                rw [hg] at this
                simp at this
            | some c0 =>
              constructor
              · intro m' log' hres x hx
                rcases hres with ⟨e, he⟩ | ho
                · simp at he
                · simp only [Outcome.ok.injEq] at ho
                  rw [← ho.1]
                  exact getChip_insertChip_isSome m2 chip x _ (hkeys2 x hx)
              · intro _; simp
          | err e m2 log2 =>
            dsimp only
            constructor
            · intro m' log' hres x hx
              rcases hres with ⟨e', he⟩ | ho
              · simp only [Outcome.err.injEq] at he
                rw [← he.2.1]
                exact hsubs.2 m2 log2 (Or.inl ⟨e, hsub⟩) x hx
              · simp at ho
            · intro _; simp
          | panicked => exact absurd hsub (fun h => hsubs.1 h)
          | outOfFuel =>
            dsimp only
            constructor
            · intro m' log' hres x hx
              rcases hres with ⟨e, he⟩ | ho
              · simp at he
              · simp at ho
            · intro _; simp

/-- Stack lemma for the sub-chip loop.  `S` is the set of names whose
resolution is in progress further up the call stack (all unchecked).  If a
successful recursive call on a listed sub-chip name can only leave
stack entries evolving trivially and can never be a call on a stack member
(hypotheses `Hok`, `Herr`, discharged by `check_chip_stack`), then a
completed loop never contained a stack member among its sub-chip names,
and stack entries evolve trivially through the whole loop. -/
theorem check_subs_stack (recur : String → ChipMap → List String → Outcome)
    (S : List String) :
    ∀ (l : List SubEntry),
    (∀ w m0 log0 m1 log1, w ∈ subNames l →
      recur w m0 log0 = .ok m1 log1 →
      (∀ s ∈ S, memoHit m0 s = false) →
      w ∉ S ∧ ∀ s ∈ S, entryEvolves m0 m1 s) →
    (∀ w m0 log0 e m1 log1, w ∈ subNames l →
      recur w m0 log0 = .err e m1 log1 →
      (∀ s ∈ S, memoHit m0 s = false) →
      ∀ s ∈ S, entryEvolves m0 m1 s) →
    ∀ (chip : String) (m : ChipMap) (log : List String) (t : Nat),
      (∀ s ∈ S, memoHit m s = false) →
      (∀ m2 log2 t2, check_subs recur chip l m log t = .ok m2 log2 t2 →
        (∀ s ∈ S, entryEvolves m m2 s) ∧ ∀ w ∈ subNames l, w ∉ S) ∧
      (∀ e m2 log2, check_subs recur chip l m log t = .err e m2 log2 →
        ∀ s ∈ S, entryEvolves m m2 s) := by
  intro l
  induction l with
  | nil =>
    intro Hok Herr chip m log t hS
    constructor
    · intro m2 log2 t2 h
      simp only [check_subs, SubsOutcome.ok.injEq] at h
      exact ⟨fun s _ => h.1 ▸ entryEvolves_refl m s, by simp [subNames]⟩
    · intro e m2 log2 h
      simp [check_subs] at h
  | cons s0 rest ih =>
    cases s0 with
    | unnamed =>
      intro Hok Herr chip m log t hS
      constructor
      · intro m2 log2 t2 h
        simp [check_subs] at h
      · intro e m2 log2 h
        simp only [check_subs, SubsOutcome.err.injEq] at h
        exact fun s _ => h.2.1 ▸ entryEvolves_refl m s
    | named name =>
      intro Hok Herr chip m log t hS
      have Hok' : ∀ w m0 log0 m1 log1, w ∈ subNames rest →
          recur w m0 log0 = .ok m1 log1 →
          (∀ s ∈ S, memoHit m0 s = false) →
          w ∉ S ∧ ∀ s ∈ S, entryEvolves m0 m1 s :=
        fun w m0 log0 m1 log1 hw =>
          Hok w m0 log0 m1 log1 (by simp [subNames, hw])
      have Herr' : ∀ w m0 log0 e m1 log1, w ∈ subNames rest →
          recur w m0 log0 = .err e m1 log1 →
          (∀ s ∈ S, memoHit m0 s = false) →
          ∀ s ∈ S, entryEvolves m0 m1 s :=
        fun w m0 log0 e m1 log1 hw =>
          Herr w m0 log0 e m1 log1 (by simp [subNames, hw])
      have hself := getChip_ensureChip_self m name
      have hev1 : ∀ s, entryEvolves m (ensureChip m name) s :=
        fun s => entryEvolves_ensure m s name
      have hS1 : ∀ s ∈ S, memoHit (ensureChip m name) s = false :=
        fun s hs => memoHit_eq_false_of_entryEvolves (hev1 s) (hS s hs)
      by_cases hchk : ((getChip m name).getD Chip.default).checked
      · have hnameS : name ∉ S := by
          intro hname
          have h0 := hS1 name hname
          simp [memoHit, hself, hchk] at h0
        constructor
        · intro m2 log2 t2 h
          simp only [check_subs, hself] at h
          rw [if_pos hchk] at h
          have := (ih Hok' Herr' chip (ensureChip m name) log _ hS1).1 m2 log2 t2 h
          refine ⟨fun s hs => entryEvolves_trans (hev1 s) (this.1 s hs), ?_⟩
          intro w hw
          rcases (by simpa [subNames] using hw : w = name ∨ w ∈ subNames rest) with
            hw' | hw'
          · exact hw' ▸ hnameS
          · exact this.2 w hw'
        · intro e m2 log2 h
          simp only [check_subs, hself] at h
          rw [if_pos hchk] at h
          exact fun s hs => entryEvolves_trans (hev1 s)
            ((ih Hok' Herr' chip (ensureChip m name) log _ hS1).2 e m2 log2 h s hs)
      · cases hrec : recur name (ensureChip m name) log with
        | ok m2 log2 =>
          have hok := Hok name (ensureChip m name) log m2 log2
            (by simp [subNames]) hrec hS1
          have hS2 : ∀ s ∈ S, memoHit m2 s = false :=
            fun s hs => memoHit_eq_false_of_entryEvolves (hok.2 s hs) (hS1 s hs)
          cases hg2 : getChip m2 name with
          | none =>
            constructor
            · intro m3 log3 t3 h
              simp only [check_subs, hself] at h
              rw [if_neg hchk, hrec] at h
              dsimp only at h
              rw [hg2] at h
              simp at h
            · intro e m3 log3 h
              simp only [check_subs, hself] at h
              rw [if_neg hchk, hrec] at h
              dsimp only at h
              rw [hg2] at h
              simp at h
          | some c2 =>
            constructor
            · intro m3 log3 t3 h
              simp only [check_subs, hself] at h
              rw [if_neg hchk, hrec] at h
              dsimp only at h
              rw [hg2] at h
              have := (ih Hok' Herr' chip m2 log2 _ hS2).1 m3 log3 t3 h
              refine ⟨fun s hs => entryEvolves_trans (hev1 s)
                (entryEvolves_trans (hok.2 s hs) (this.1 s hs)), ?_⟩
              intro w hw
              rcases (by simpa [subNames] using hw : w = name ∨ w ∈ subNames rest)
                with hw' | hw'
              · exact hw' ▸ hok.1
              · exact this.2 w hw'
            · intro e m3 log3 h
              simp only [check_subs, hself] at h
              rw [if_neg hchk, hrec] at h
              dsimp only at h
              rw [hg2] at h
              exact fun s hs => entryEvolves_trans (hev1 s)
                (entryEvolves_trans (hok.2 s hs)
                  ((ih Hok' Herr' chip m2 log2 _ hS2).2 e m3 log3 h s hs))
        | err e m2 log2 =>
          constructor
          · intro m3 log3 t3 h
            simp only [check_subs, hself] at h
            rw [if_neg hchk, hrec] at h
            simp at h
          · intro e' m3 log3 h
            simp only [check_subs, hself] at h
            rw [if_neg hchk, hrec] at h
            dsimp only at h
            simp only [SubsOutcome.err.injEq] at h
            refine fun s hs => h.2.1 ▸ entryEvolves_trans (hev1 s) ?_
            exact Herr name (ensureChip m name) log e m2 log2
              (by simp [subNames]) hrec hS1 s hs
        | panicked =>
          constructor
          · intro m3 log3 t3 h
            simp only [check_subs, hself] at h
            rw [if_neg hchk, hrec] at h
            simp at h
          · intro e m3 log3 h
            simp only [check_subs, hself] at h
            rw [if_neg hchk, hrec] at h
            simp at h
        | outOfFuel =>
          constructor
          · intro m3 log3 t3 h
            simp only [check_subs, hself] at h
            rw [if_neg hchk, hrec] at h
            simp at h
          · intro e m3 log3 h
            simp only [check_subs, hself] at h
            rw [if_neg hchk, hrec] at h
            simp at h

/-- Main stack theorem about `check_chip`.  Let `S` be a chain of unchecked
names, each of whose stored definitions lists a member of `S` (or the
current chip) among its sub-chip names — the shape of the call stack during
a resolution in progress.  Then a successful call is never a call on a
member of `S`, and a terminating call leaves each member's entry evolving
trivially (untouched, or created as the unresolved placeholder); for an
error result the current chip's own entry also evolves trivially, i.e. the
commit point was never reached. -/
theorem check_chip_stack (storage : Storage) :
    ∀ (fuel : Nat) (S : List String) (chip : String) (m : ChipMap)
      (log : List String),
      (∀ s ∈ S, memoHit m s = false) →
      (∀ s ∈ S, ∃ ls, storage s = some (.subChips ls) ∧
        ∃ k, k ∈ subNames ls ∧ (k ∈ S ∨ k = chip)) →
      (∀ m' log', check_chip storage fuel chip m log = .ok m' log' →
        chip ∉ S ∧ ∀ s ∈ S, entryEvolves m m' s) ∧
      (∀ e m' log', check_chip storage fuel chip m log = .err e m' log' →
        entryEvolves m m' chip ∧ ∀ s ∈ S, entryEvolves m m' s) := by
  intro fuel
  induction fuel with
  | zero =>
    intro S chip m log hS hChain
    constructor
    · intro m' log' h; simp [check_chip_zero] at h
    · intro e m' log' h; simp [check_chip_zero] at h
  | succ fuel ih =>
    intro S chip m log hS hChain
    cases hmh : memoHit m chip with
    | true =>
      rw [check_chip_memoTrue storage fuel chip m log hmh]
      constructor
      · intro m' log' h
        simp only [Outcome.ok.injEq] at h
        refine ⟨?_, fun s hs => h.1 ▸ entryEvolves_refl m s⟩
        intro hchip
        have := hS chip hchip
        rw [hmh] at this
        exact Bool.noConfusion this
      · intro e m' log' h; simp at h
    | false =>
      cases hst : storage chip with
      | none =>
        rw [check_chip_fileNotFound storage fuel chip m log hmh hst]
        constructor
        · intro m' log' h; simp at h
        · intro e m' log' h
          simp only [Outcome.err.injEq] at h
          exact ⟨h.2.1 ▸ entryEvolves_refl m chip,
            fun s _ => h.2.1 ▸ entryEvolves_refl m s⟩
      | some fc =>
        cases fc with
        | unreadable =>
          rw [check_chip_unreadable storage fuel chip m log hmh hst]
          constructor
          · intro m' log' h; simp at h
          · intro e m' log' h
            simp only [Outcome.err.injEq] at h
            exact ⟨h.2.1 ▸ entryEvolves_refl m chip,
              fun s _ => h.2.1 ▸ entryEvolves_refl m s⟩
        | unparseable =>
          rw [check_chip_unparseable storage fuel chip m log hmh hst]
          constructor
          · intro m' log' h; simp at h
          · intro e m' log' h
            simp only [Outcome.err.injEq] at h
            exact ⟨h.2.1 ▸ entryEvolves_refl m chip,
              fun s _ => h.2.1 ▸ entryEvolves_refl m s⟩
        | noSubChips =>
          rw [check_chip_noSubChips storage fuel chip m log hmh hst]
          constructor
          · intro m' log' h; simp at h
          · intro e m' log' h
            simp only [Outcome.err.injEq] at h
            exact ⟨h.2.1 ▸ entryEvolves_refl m chip,
              fun s _ => h.2.1 ▸ entryEvolves_refl m s⟩
        | subChips subs =>
          rw [check_chip_subChips storage fuel chip m log subs hmh hst]
          have Hok : ∀ w m0 log0 m1 log1, w ∈ subNames subs →
              check_chip storage fuel w m0 log0 = .ok m1 log1 →
              (∀ s ∈ chip :: S, memoHit m0 s = false) →
              w ∉ chip :: S ∧ ∀ s ∈ chip :: S, entryEvolves m0 m1 s := by
            intro w m0 log0 m1 log1 hw hok hS0
            have hChain0 : ∀ s ∈ chip :: S, ∃ ls,
                storage s = some (.subChips ls) ∧
                ∃ k, k ∈ subNames ls ∧ (k ∈ chip :: S ∨ k = w) := by
              intro s hs
              rcases List.mem_cons.mp hs with hs' | hs'
              · exact ⟨subs, hs' ▸ hst, w, hw, Or.inr rfl⟩
              · rcases hChain s hs' with ⟨ls, hls, k, hk, hkor⟩
                refine ⟨ls, hls, k, hk, Or.inl ?_⟩
                rcases hkor with hkS | hkchip
                · exact List.mem_cons_of_mem chip hkS
                · exact hkchip ▸ List.mem_cons_self chip S
            exact (ih (chip :: S) w m0 log0 hS0 hChain0).1 m1 log1 hok
          have Herr : ∀ w m0 log0 e m1 log1, w ∈ subNames subs →
              check_chip storage fuel w m0 log0 = .err e m1 log1 →
              (∀ s ∈ chip :: S, memoHit m0 s = false) →
              ∀ s ∈ chip :: S, entryEvolves m0 m1 s := by
            intro w m0 log0 e m1 log1 hw herr hS0
            have hChain0 : ∀ s ∈ chip :: S, ∃ ls,
                storage s = some (.subChips ls) ∧
                ∃ k, k ∈ subNames ls ∧ (k ∈ chip :: S ∨ k = w) := by
              intro s hs
              rcases List.mem_cons.mp hs with hs' | hs'
              · exact ⟨subs, hs' ▸ hst, w, hw, Or.inr rfl⟩
              · rcases hChain s hs' with ⟨ls, hls, k, hk, hkor⟩
                refine ⟨ls, hls, k, hk, Or.inl ?_⟩
                rcases hkor with hkS | hkchip
                · exact List.mem_cons_of_mem chip hkS
                · exact hkchip ▸ List.mem_cons_self chip S
            exact ((ih (chip :: S) w m0 log0 hS0 hChain0).2 e m1 log1 herr).2
          have hS' : ∀ s ∈ chip :: S, memoHit m s = false := by
            intro s hs
            rcases List.mem_cons.mp hs with hs' | hs'
            · exact hs' ▸ hmh
            · exact hS s hs'
          have hstack := check_subs_stack
            (fun n m0 log0 => check_chip storage fuel n m0 log0)
            (chip :: S) subs Hok Herr chip m (log ++ [chip]) 0 hS'
          cases hsub : check_subs
              (fun n m0 log0 => check_chip storage fuel n m0 log0)
              chip subs m (log ++ [chip]) 0 with
          | ok m2 log2 total =>
            have hQ1 := hstack.1 m2 log2 total hsub
            dsimp only
            cases hg : getChip m2 chip with
            | none =>
              constructor
              · intro m' log' h; simp at h
              · intro e m' log' h; simp at h
            | some c0 =>
              constructor
              · intro m' log' h
                simp only [Outcome.ok.injEq] at h
                have hchipS : chip ∉ S := by
                  intro hchip
                  rcases hChain chip hchip with ⟨ls, hls, k, hk, hkor⟩
                  rw [hst] at hls
                  have hls' : ls = subs := by
                    injection hls with hls''
                    injection hls'' with hls3
                    exact hls3.symm
                  subst hls'
                  refine hQ1.2 k hk ?_
                  rcases hkor with hkS | hkchip
                  · exact List.mem_cons_of_mem chip hkS
                  · exact hkchip ▸ List.mem_cons_self chip S
                refine ⟨hchipS, fun s hs => ?_⟩
                have hsnechip : s ≠ chip := fun hseq => hchipS (hseq ▸ hs)
                have hev2 : entryEvolves m m2 s :=
                  hQ1.1 s (List.mem_cons_of_mem chip hs)
                refine entryEvolves_trans hev2 (Or.inl ?_)
                rw [← h.1, getChip_insertChip_ne _ _ _ _ hsnechip]
              · intro e m' log' h; simp at h
          | err e m2 log2 =>
            dsimp only
            constructor
            · intro m' log' h; simp at h
            · intro e' m' log' h
              simp only [Outcome.err.injEq] at h
              have hQ2 := hstack.2 e m2 log2 hsub
              refine ⟨h.2.1 ▸ hQ2 chip (List.mem_cons_self chip S), ?_⟩
              exact fun s hs => h.2.1 ▸ hQ2 s (List.mem_cons_of_mem chip hs)
          | panicked =>
            dsimp only
            constructor
            · intro m' log' h; simp at h
            · intro e m' log' h; simp at h
          | outOfFuel =>
            dsimp only
            constructor
            · intro m' log' h; simp at h
            · intro e m' log' h; simp at h

theorem sumSubs_congr (m m' : ChipMap) :
    ∀ l : List SubEntry, (∀ n ∈ subNames l, getChip m' n = getChip m n) →
      sumSubs m' l = sumSubs m l := by
  intro l
  induction l with
  | nil => intro _; rfl
  | cons s rest ih =>
    cases s with
    | unnamed =>
      intro h
      simp only [sumSubs]
      exact ih (fun n hn => h n (by simpa [subNames] using hn))
    | named name =>
      intro h
      simp only [sumSubs]
      rw [h name (by simp [subNames]),
        ih (fun n hn => h n (by simp [subNames, hn]))]

/-- On a successfully completed sub-chip loop, every listed name ends up
checked, and the accumulated total is the sum of the listed names' final
gate counts, one contribution per occurrence. -/
theorem check_subs_sum (recur : String → ChipMap → List String → Outcome)
    (Hpres : ∀ n m0 log0 m1 log1,
      ((∃ e, recur n m0 log0 = .err e m1 log1) ∨ recur n m0 log0 = .ok m1 log1) →
      ∀ x c, getChip m0 x = some c → c.checked = true → getChip m1 x = some c)
    (Hpost : ∀ n m0 log0 m1 log1, recur n m0 log0 = .ok m1 log1 →
      ∃ c, getChip m1 n = some c ∧ c.checked = true) :
    ∀ (l : List SubEntry) (chip : String) (m : ChipMap) (log : List String)
      (t : Nat) (m2 : ChipMap) (log2 : List String) (t2 : Nat),
      check_subs recur chip l m log t = .ok m2 log2 t2 →
      (∀ n ∈ subNames l, ∃ c, getChip m2 n = some c ∧ c.checked = true) ∧
      t2 = t + sumSubs m2 l := by
  intro l
  induction l with
  | nil =>
    intro chip m log t m2 log2 t2 h
    simp only [check_subs, SubsOutcome.ok.injEq] at h
    exact ⟨by simp [subNames], by simp [sumSubs, h.2.2]⟩
  | cons s rest ih =>
    cases s with
    | unnamed =>
      intro chip m log t m2 log2 t2 h
      simp [check_subs] at h
    | named name =>
      intro chip m log t m2 log2 t2 h
      have hself := getChip_ensureChip_self m name
      simp only [check_subs, hself] at h
      by_cases hchk : ((getChip m name).getD Chip.default).checked
      · rw [if_pos hchk] at h
        have hfacts := ih chip (ensureChip m name) log _ m2 log2 t2 h
        have hget2 : getChip m2 name = some ((getChip m name).getD Chip.default) :=
          check_subs_preserves_checked recur Hpres rest chip (ensureChip m name)
            log _ m2 log2 (Or.inr ⟨t2, h⟩) name _ hself hchk
        constructor
        · intro n hn
          rcases (by simpa [subNames] using hn : n = name ∨ n ∈ subNames rest)
            with hn' | hn'
          · exact ⟨_, hn' ▸ hget2, hchk⟩
          · exact hfacts.1 n hn'
        · rw [hfacts.2]
          simp only [sumSubs, hget2]
          omega
      · rw [if_neg hchk] at h
        cases hrec : recur name (ensureChip m name) log with
        | ok m2' log2' =>
          rw [hrec] at h
          dsimp only at h
          rcases Hpost name (ensureChip m name) log m2' log2' hrec with
            ⟨cpost, hgpost, hcpost⟩
          rw [hgpost] at h
          have hfacts := ih chip m2' log2' _ m2 log2 t2 h
          have hget2 : getChip m2 name = some cpost :=
            check_subs_preserves_checked recur Hpres rest chip m2' log2' _
              m2 log2 (Or.inr ⟨t2, h⟩) name cpost hgpost hcpost
          constructor
          · intro n hn
            rcases (by simpa [subNames] using hn : n = name ∨ n ∈ subNames rest)
              with hn' | hn'
            · exact ⟨cpost, hn' ▸ hget2, hcpost⟩
            · exact hfacts.1 n hn'
          · rw [hfacts.2]
            simp only [sumSubs, hget2]
            omega
        | err e m2' log2' => rw [hrec] at h; simp at h
        | panicked => rw [hrec] at h; simp at h
        | outOfFuel => rw [hrec] at h; simp at h

/-- Core resolution theorem: a `check_chip` call that actually resolves a
chip (memo miss, then success) never had the chip among its own sub-chip
names, and commits exactly the sum of its sub-chips' final gate counts,
taken in declared order with one contribution per occurrence. -/
theorem check_chip_resolved_sum (storage : Storage) (fuel : Nat)
    (chip : String) (m : ChipMap) (log : List String) (m' : ChipMap)
    (log' : List String) (l : List SubEntry)
    (hst : storage chip = some (.subChips l))
    (hmh : memoHit m chip = false)
    (h : check_chip storage fuel chip m log = .ok m' log') :
    chip ∉ subNames l ∧ getChip m' chip = some ⟨sumSubs m' l, true⟩ := by
  cases fuel with
  | zero => simp [check_chip_zero] at h
  | succ fuel =>
    rw [check_chip_subChips storage fuel chip m log l hmh hst] at h
    have Hok : ∀ w m0 log0 m1 log1, w ∈ subNames l →
        check_chip storage fuel w m0 log0 = .ok m1 log1 →
        (∀ s ∈ [chip], memoHit m0 s = false) →
        w ∉ [chip] ∧ ∀ s ∈ [chip], entryEvolves m0 m1 s := by
      intro w m0 log0 m1 log1 hw hok hS0
      have hChain0 : ∀ s ∈ [chip], ∃ ls, storage s = some (.subChips ls) ∧
          ∃ k, k ∈ subNames ls ∧ (k ∈ [chip] ∨ k = w) := by
        intro s hs
        rcases List.mem_singleton.mp hs with rfl
        exact ⟨l, hst, w, hw, Or.inr rfl⟩
      exact (check_chip_stack storage fuel [chip] w m0 log0 hS0 hChain0).1
        m1 log1 hok
    have Herr : ∀ w m0 log0 e m1 log1, w ∈ subNames l →
        check_chip storage fuel w m0 log0 = .err e m1 log1 →
        (∀ s ∈ [chip], memoHit m0 s = false) →
        ∀ s ∈ [chip], entryEvolves m0 m1 s := by
      intro w m0 log0 e m1 log1 hw herr hS0
      have hChain0 : ∀ s ∈ [chip], ∃ ls, storage s = some (.subChips ls) ∧
          ∃ k, k ∈ subNames ls ∧ (k ∈ [chip] ∨ k = w) := by
        intro s hs
        rcases List.mem_singleton.mp hs with rfl
        exact ⟨l, hst, w, hw, Or.inr rfl⟩
      exact ((check_chip_stack storage fuel [chip] w m0 log0 hS0 hChain0).2
        e m1 log1 herr).2
    have hS' : ∀ s ∈ [chip], memoHit m s = false := by
      intro s hs
      rcases List.mem_singleton.mp hs with rfl
      exact hmh
    have hstack := check_subs_stack
      (fun n m0 log0 => check_chip storage fuel n m0 log0)
      [chip] l Hok Herr chip m (log ++ [chip]) 0 hS'
    cases hsub : check_subs
        (fun n m0 log0 => check_chip storage fuel n m0 log0)
        chip l m (log ++ [chip]) 0 with
    | ok m2 log2 total =>
      rw [hsub] at h
      dsimp only at h
      cases hg : getChip m2 chip with
      | none => rw [hg] at h; simp at h
      | some c0 =>
        rw [hg] at h
        simp only [Outcome.ok.injEq] at h
        have hQ1 := hstack.1 m2 log2 total hsub
        have hchipl : chip ∉ subNames l := by
          intro hchip
          exact hQ1.2 chip hchip (List.mem_singleton.mpr rfl)
        have hsum := check_subs_sum
          (fun n m0 log0 => check_chip storage fuel n m0 log0)
          (fun n m0 log0 m1 log1 hr =>
            check_chip_preserves_checked storage fuel n m0 log0 m1 log1 hr)
          (fun n m0 log0 m1 log1 hr =>
            check_chip_post_ok storage fuel n m0 log0 m1 log1 hr)
          l chip m (log ++ [chip]) 0 m2 log2 total hsub
        have hm' : m' = insertChip m2 chip ⟨total, true⟩ := h.1.symm
        have hcongr : sumSubs m' l = sumSubs m2 l := by
          refine sumSubs_congr m2 m' l (fun n hn => ?_)
          have hne : n ≠ chip := fun hq => hchipl (hq ▸ hn)
          rw [hm', getChip_insertChip_ne _ _ _ _ hne]
        refine ⟨hchipl, ?_⟩
        have hget : getChip m' chip = some ⟨total, true⟩ := by
          rw [hm', getChip_insertChip_self]
        have htot : total = sumSubs m2 l := by
          rw [hsum.2]; omega
        rw [hget, hcongr, htot]
    | err e m2 log2 => rw [hsub] at h; simp at h
    | panicked => rw [hsub] at h; simp at h
    | outOfFuel => rw [hsub] at h; simp at h

theorem check_subs_no_outOfFuel (recur : String → ChipMap → List String → Outcome)
    (l : List SubEntry)
    (Hfuel : ∀ w m0 log0, w ∈ subNames l → recur w m0 log0 ≠ .outOfFuel) :
    ∀ (chip : String) (m : ChipMap) (log : List String) (t : Nat),
      check_subs recur chip l m log t ≠ .outOfFuel := by
  induction l with
  | nil => intro chip m log t; simp [check_subs]
  | cons s rest ih =>
    cases s with
    | unnamed => intro chip m log t; simp [check_subs]
    | named name =>
      intro chip m log t
      have Hfuel' : ∀ w m0 log0, w ∈ subNames rest → recur w m0 log0 ≠ .outOfFuel :=
        fun w m0 log0 hw => Hfuel w m0 log0 (by simp [subNames, hw])
      have hself := getChip_ensureChip_self m name
      simp only [check_subs, hself]
      by_cases hchk : ((getChip m name).getD Chip.default).checked
      · rw [if_pos hchk]
        exact ih Hfuel' chip (ensureChip m name) log _
      · rw [if_neg hchk]
        cases hrec : recur name (ensureChip m name) log with
        | ok m2 log2 =>
          dsimp only
          cases hg2 : getChip m2 name with
          | none => simp
          | some c2 => exact ih Hfuel' chip m2 log2 _
        | err e m2 log2 => simp
        | panicked => simp
        | outOfFuel =>
          exact absurd hrec (Hfuel name (ensureChip m name) log (by simp [subNames]))

/-- Acyclic inputs terminate: when a rank function witnesses that every
stored definition only references strictly lower-ranked chips, any fuel
above the chip's rank is enough, so the Rust recursion (which has no fuel
bound) terminates. -/
theorem check_chip_dag_terminates (storage : Storage) (rank : String → Nat)
    (Hdag : ∀ n ls, storage n = some (.subChips ls) →
      ∀ x ∈ subNames ls, rank x < rank n) :
    ∀ (fuel : Nat) (chip : String) (m : ChipMap) (log : List String),
      rank chip < fuel → check_chip storage fuel chip m log ≠ .outOfFuel := by
  intro fuel
  induction fuel with
  | zero => intro chip m log hr; omega
  | succ fuel ih =>
    intro chip m log hr
    cases hmh : memoHit m chip with
    | true => rw [check_chip_memoTrue storage fuel chip m log hmh]; simp
    | false =>
      cases hst : storage chip with
      | none => rw [check_chip_fileNotFound storage fuel chip m log hmh hst]; simp
      | some fc =>
        cases fc with
        | unreadable =>
          rw [check_chip_unreadable storage fuel chip m log hmh hst]; simp
        | unparseable =>
          rw [check_chip_unparseable storage fuel chip m log hmh hst]; simp
        | noSubChips =>
          rw [check_chip_noSubChips storage fuel chip m log hmh hst]; simp
        | subChips subs =>
          rw [check_chip_subChips storage fuel chip m log subs hmh hst]
          have Hfuel : ∀ w m0 log0, w ∈ subNames subs →
              check_chip storage fuel w m0 log0 ≠ .outOfFuel := by
            intro w m0 log0 hw
            have hrw : rank w < rank chip := Hdag chip subs hst w hw
            exact ih w m0 log0 (by omega)
          have hsubs := check_subs_no_outOfFuel
            (fun n m0 log0 => check_chip storage fuel n m0 log0) subs Hfuel
            chip m (log ++ [chip]) 0
          cases hsub : check_subs
              (fun n m0 log0 => check_chip storage fuel n m0 log0)
              chip subs m (log ++ [chip]) 0 with
          | ok m2 log2 total =>
            dsimp only
            cases hg : getChip m2 chip with
            | none => simp
            | some c0 => simp
          | err e m2 log2 => simp
          | panicked => simp
          | outOfFuel => exact absurd hsub hsubs

/-- Divergence on cycles that the resolver actually follows: if every
member of a set `C` of unchecked names stores a definition whose first
sub-chip entry names another member of `C`, then resolving any member runs
out of any amount of fuel — the Rust recursion never terminates.  The memo
is never hit because each member is re-entered before being marked
resolved. -/
theorem check_chip_cycle_diverges (storage : Storage) (C : List String)
    (Hcyc : ∀ c ∈ C, ∃ c' rest, storage c = some (.subChips (.named c' :: rest)) ∧
      c' ∈ C) :
    ∀ (fuel : Nat) (chip : String) (m : ChipMap) (log : List String),
      chip ∈ C → (∀ c ∈ C, memoHit m c = false) →
      check_chip storage fuel chip m log = .outOfFuel := by
  intro fuel
  induction fuel with
  | zero => intro chip m log _ _; exact check_chip_zero storage chip m log
  | succ fuel ih =>
    intro chip m log hchip hS
    have hmh : memoHit m chip = false := hS chip hchip
    rcases Hcyc chip hchip with ⟨c', rest, hstc, hc'⟩
    rw [check_chip_subChips storage fuel chip m log _ hmh hstc]
    have hself := getChip_ensureChip_self m c'
    have hS1 : ∀ c ∈ C, memoHit (ensureChip m c') c = false :=
      fun c hc => memoHit_eq_false_of_entryEvolves (entryEvolves_ensure m c c') (hS c hc)
    have hchk : ((getChip m c').getD Chip.default).checked = false := by
      have h1 := hS1 c' hc'
      rw [memoHit, hself] at h1
      exact h1
    have hrec : check_chip storage fuel c' (ensureChip m c') (log ++ [chip]) =
        .outOfFuel := ih c' (ensureChip m c') (log ++ [chip]) hc' hS1
    simp only [check_subs, hself, hchk]
    simp [hrec]

/-- Every error produced by the sub-chip loop either comes out of a
recursive call or is the loop's own missing-name error for the enclosing
chip. -/
theorem check_subs_err_pred (recur : String → ChipMap → List String → Outcome)
    (P : ChipError → Prop)
    (Hrec : ∀ n m0 log0 e m1 log1, recur n m0 log0 = .err e m1 log1 → P e) :
    ∀ (l : List SubEntry) (chip : String) (m : ChipMap) (log : List String)
      (t : Nat) (e : ChipError) (m2 : ChipMap) (log2 : List String),
      check_subs recur chip l m log t = .err e m2 log2 →
      P e ∨ e = .entryMissingName chip := by
  intro l
  induction l with
  | nil =>
    intro chip m log t e m2 log2 h
    simp [check_subs] at h
  | cons s rest ih =>
    cases s with
    | unnamed =>
      intro chip m log t e m2 log2 h
      simp only [check_subs, SubsOutcome.err.injEq] at h
      exact Or.inr h.1.symm
    | named name =>
      intro chip m log t e m2 log2 h
      have hself := getChip_ensureChip_self m name
      simp only [check_subs, hself] at h
      by_cases hchk : ((getChip m name).getD Chip.default).checked
      · rw [if_pos hchk] at h
        exact ih chip (ensureChip m name) log _ e m2 log2 h
      · rw [if_neg hchk] at h
        cases hrec : recur name (ensureChip m name) log with
        | ok m2' log2' =>
          rw [hrec] at h
          dsimp only at h
          cases hg2 : getChip m2' name with
          | none => rw [hg2] at h; simp at h
          | some c2 =>
            rw [hg2] at h
            exact ih chip m2' log2' _ e m2 log2 h
        | err e' m2' log2' =>
          rw [hrec] at h
          simp only [SubsOutcome.err.injEq] at h
          exact Or.inl (h.1 ▸ Hrec name (ensureChip m name) log e' m2' log2' hrec)
        | panicked => rw [hrec] at h; simp at h
        | outOfFuel => rw [hrec] at h; simp at h

/-- The `fileNotFound` error is only ever produced for a name whose
definition file really is absent from storage: `DefinitionNotFound`
reports exactly a missing `<base_path>/Chips/<name>.json`. -/
theorem check_chip_err_fileNotFound_storage (storage : Storage) :
    ∀ (fuel : Nat) (chip : String) (m : ChipMap) (log : List String)
      (e : ChipError) (m' : ChipMap) (log' : List String) (x : String),
      check_chip storage fuel chip m log = .err e m' log' →
      e = .fileNotFound x → storage x = none := by
  intro fuel
  induction fuel with
  | zero =>
    intro chip m log e m' log' x h
    simp [check_chip_zero] at h
  | succ fuel ih =>
    intro chip m log e m' log' x h he
    cases hmh : memoHit m chip with
    | true =>
      rw [check_chip_memoTrue storage fuel chip m log hmh] at h
      simp at h
    | false =>
      cases hst : storage chip with
      | none =>
        rw [check_chip_fileNotFound storage fuel chip m log hmh hst] at h
        simp only [Outcome.err.injEq] at h
        have : ChipError.fileNotFound chip = ChipError.fileNotFound x := h.1 ▸ he
        injection this with hx
        exact hx ▸ hst
      | some fc =>
        cases fc with
        | unreadable =>
          rw [check_chip_unreadable storage fuel chip m log hmh hst] at h
          simp only [Outcome.err.injEq] at h
          rw [← h.1] at he
          exact absurd he (by simp)
        | unparseable =>
          rw [check_chip_unparseable storage fuel chip m log hmh hst] at h
          simp only [Outcome.err.injEq] at h
          rw [← h.1] at he
          exact absurd he (by simp)
        | noSubChips =>
          rw [check_chip_noSubChips storage fuel chip m log hmh hst] at h
          simp only [Outcome.err.injEq] at h
          rw [← h.1] at he
          exact absurd he (by simp)
        | subChips subs =>
          rw [check_chip_subChips storage fuel chip m log subs hmh hst] at h
          cases hsub : check_subs
              (fun n m0 log0 => check_chip storage fuel n m0 log0)
              chip subs m (log ++ [chip]) 0 with
          | ok m2 log2 total =>
            rw [hsub] at h
            dsimp only at h
            cases hg : getChip m2 chip with
            | none => rw [hg] at h; simp at h
            | some c0 => rw [hg] at h; simp at h
          | err e2 m2 log2 =>
            rw [hsub] at h
            simp only [Outcome.err.injEq] at h
            have hpred := check_subs_err_pred
              (fun n m0 log0 => check_chip storage fuel n m0 log0)
              (fun e0 => ∀ y, e0 = .fileNotFound y → storage y = none)
              (fun n m0 log0 e0 m1 log1 hr y hy =>
                ih n m0 log0 e0 m1 log1 y hr hy)
              subs chip m (log ++ [chip]) 0 e2 m2 log2 hsub
            rcases hpred with hP | hname
            · exact hP x (h.1 ▸ he)
            · rw [← h.1, hname] at he
              exact absurd he (by simp)
          | panicked => rw [hsub] at h; simp at h
          | outOfFuel => rw [hsub] at h; simp at h

/-- A fixed name evolves trivially through one run of the sub-chip loop,
if it evolves trivially through each recursive call. -/
theorem check_subs_evolves (recur : String → ChipMap → List String → Outcome)
    (x : String)
    (Hrec : ∀ n m0 log0 m1 log1,
      ((∃ e, recur n m0 log0 = .err e m1 log1) ∨ recur n m0 log0 = .ok m1 log1) →
      entryEvolves m0 m1 x) :
    ∀ (l : List SubEntry) (chip : String) (m : ChipMap) (log : List String)
      (t : Nat) (m' : ChipMap) (log' : List String),
      ((∃ e, check_subs recur chip l m log t = .err e m' log') ∨
        (∃ t', check_subs recur chip l m log t = .ok m' log' t')) →
      entryEvolves m m' x := by
  intro l
  induction l with
  | nil =>
    intro chip m log t m' log' hres
    rcases hres with ⟨e, he⟩ | ⟨t', ho⟩
    · simp [check_subs] at he
    · simp only [check_subs, SubsOutcome.ok.injEq] at ho
      exact ho.1 ▸ entryEvolves_refl m x
  | cons s rest ih =>
    cases s with
    | unnamed =>
      intro chip m log t m' log' hres
      rcases hres with ⟨e, he⟩ | ⟨t', ho⟩
      · simp only [check_subs, SubsOutcome.err.injEq] at he
        exact he.2.1 ▸ entryEvolves_refl m x
      · simp [check_subs] at ho
    | named name =>
      intro chip m log t m' log' hres
      have hself := getChip_ensureChip_self m name
      have hev1 : entryEvolves m (ensureChip m name) x :=
        entryEvolves_ensure m x name
      simp only [check_subs, hself] at hres
      by_cases hchk : ((getChip m name).getD Chip.default).checked
      · rw [if_pos hchk] at hres
        exact entryEvolves_trans hev1 (ih chip (ensureChip m name) log _ m' log' hres)
      · rw [if_neg hchk] at hres
        cases hrec : recur name (ensureChip m name) log with
        | ok m2 log2 =>
          rw [hrec] at hres
          dsimp only at hres
          have hev2 : entryEvolves (ensureChip m name) m2 x :=
            Hrec name (ensureChip m name) log m2 log2 (Or.inr hrec)
          cases hg2 : getChip m2 name with
          | none =>
            rw [hg2] at hres
            rcases hres with ⟨e, he⟩ | ⟨t', ho⟩
            · simp at he
            · simp at ho
          | some c2 =>
            rw [hg2] at hres
            exact entryEvolves_trans hev1 (entryEvolves_trans hev2
              (ih chip m2 log2 _ m' log' hres))
        | err e m2 log2 =>
          rw [hrec] at hres
          dsimp only at hres
          rcases hres with ⟨e', he⟩ | ⟨t', ho⟩
          · simp only [SubsOutcome.err.injEq] at he
            exact he.2.1 ▸ entryEvolves_trans hev1
              (Hrec name (ensureChip m name) log m2 log2 (Or.inl ⟨e, hrec⟩))
          · simp at ho
        | panicked =>
          rw [hrec] at hres
          rcases hres with ⟨e, he⟩ | ⟨t', ho⟩
          · simp at he
          · simp at ho
        | outOfFuel =>
          rw [hrec] at hres
          rcases hres with ⟨e, he⟩ | ⟨t', ho⟩
          · simp at he
          · simp at ho

/-- A name with no definition file in storage evolves trivially through any
terminating `check_chip` call: nothing can ever commit it, so its entry is
at most created as an unresolved placeholder and is never resolved. -/
theorem check_chip_dead_entry (storage : Storage) (x : String)
    (hx : storage x = none) :
    ∀ (fuel : Nat) (chip : String) (m : ChipMap) (log : List String)
      (m' : ChipMap) (log' : List String),
      ((∃ e, check_chip storage fuel chip m log = .err e m' log') ∨
        check_chip storage fuel chip m log = .ok m' log') →
      entryEvolves m m' x := by
  intro fuel
  induction fuel with
  | zero =>
    intro chip m log m' log' hres
    rcases hres with ⟨e, he⟩ | ho
    · simp [check_chip_zero] at he
    · simp [check_chip_zero] at ho
  | succ fuel ih =>
    intro chip m log m' log' hres
    cases hmh : memoHit m chip with
    | true =>
      rw [check_chip_memoTrue storage fuel chip m log hmh] at hres
      rcases hres with ⟨e, he⟩ | ho
      · simp at he
      · simp only [Outcome.ok.injEq] at ho
        exact ho.1 ▸ entryEvolves_refl m x
    | false =>
      cases hst : storage chip with
      | none =>
        rw [check_chip_fileNotFound storage fuel chip m log hmh hst] at hres
        rcases hres with ⟨e, he⟩ | ho
        · simp only [Outcome.err.injEq] at he
          exact he.2.1 ▸ entryEvolves_refl m x
        · simp at ho
      | some fc =>
        cases fc with
        | unreadable =>
          rw [check_chip_unreadable storage fuel chip m log hmh hst] at hres
          rcases hres with ⟨e, he⟩ | ho
          · simp only [Outcome.err.injEq] at he
            exact he.2.1 ▸ entryEvolves_refl m x
          · simp at ho
        | unparseable =>
          rw [check_chip_unparseable storage fuel chip m log hmh hst] at hres
          rcases hres with ⟨e, he⟩ | ho
          · simp only [Outcome.err.injEq] at he
            exact he.2.1 ▸ entryEvolves_refl m x
          · simp at ho
        | noSubChips =>
          rw [check_chip_noSubChips storage fuel chip m log hmh hst] at hres
          rcases hres with ⟨e, he⟩ | ho
          · simp only [Outcome.err.injEq] at he
            exact he.2.1 ▸ entryEvolves_refl m x
          · simp at ho
        | subChips subs =>
          have hchipx : chip ≠ x := by
            intro hq
            rw [hq, hx] at hst
            exact Option.noConfusion hst
          rw [check_chip_subChips storage fuel chip m log subs hmh hst] at hres
          cases hsub : check_subs
              (fun n m0 log0 => check_chip storage fuel n m0 log0)
              chip subs m (log ++ [chip]) 0 with
          | ok m2 log2 total =>
            rw [hsub] at hres
            dsimp only at hres
            have hev2 : entryEvolves m m2 x :=
              check_subs_evolves _ x
                (fun n m0 log0 m1 log1 hr => ih n m0 log0 m1 log1 hr)
                subs chip m (log ++ [chip]) 0 m2 log2 (Or.inr ⟨total, hsub⟩)
            cases hg : getChip m2 chip with
            | none =>
              rw [hg] at hres
              rcases hres with ⟨e, he⟩ | ho
              · simp at he
              · simp at ho
            | some c0 =>
              rw [hg] at hres
              rcases hres with ⟨e, he⟩ | ho
              · simp at he
              · simp only [Outcome.ok.injEq] at ho
                refine entryEvolves_trans hev2 (Or.inl ?_)
                rw [← ho.1, getChip_insertChip_ne _ _ _ _ (Ne.symm hchipx)]
          | err e m2 log2 =>
            rw [hsub] at hres
            dsimp only at hres
            rcases hres with ⟨e', he⟩ | ho
            · simp only [Outcome.err.injEq] at he
              exact he.2.1 ▸ check_subs_evolves _ x
                (fun n m0 log0 m1 log1 hr => ih n m0 log0 m1 log1 hr)
                subs chip m (log ++ [chip]) 0 m2 log2 (Or.inl ⟨e, hsub⟩)
            · simp at ho
          | panicked =>
            rw [hsub] at hres
            rcases hres with ⟨e, he⟩ | ho
            · simp at he
            · simp at ho
          | outOfFuel =>
            rw [hsub] at hres
            rcases hres with ⟨e, he⟩ | ho
            · simp at he
            · simp at ho

/-- Checked entries survive the whole per-chip scan loop unchanged. -/
theorem scan_chips_preserves_checked (storage : Storage) (fuel : Nat) :
    ∀ (chips : List String) (m : ChipMap) (log : List String)
      (m' : ChipMap) (log' : List String),
      scan_chips storage fuel chips m log = .done m' log' →
      ∀ x c, getChip m x = some c → c.checked = true → getChip m' x = some c := by
  intro chips
  induction chips with
  | nil =>
    intro m log m' log' h x c hx hc
    simp only [scan_chips, LoopResult.done.injEq] at h
    exact h.1 ▸ hx
  | cons c0 rest ih =>
    intro m log m' log' h x c hx hc
    simp only [scan_chips] at h
    cases hcc : check_chip storage fuel c0 m log with
    | ok m1 log1 =>
      rw [hcc] at h
      exact ih m1 log1 m' log' h x c
        (check_chip_preserves_checked storage fuel c0 m log m1 log1
          (Or.inr hcc) x c hx hc) hc
    | err e m1 log1 =>
      rw [hcc] at h
      exact ih m1 log1 m' log' h x c
        (check_chip_preserves_checked storage fuel c0 m log m1 log1
          (Or.inl ⟨e, hcc⟩) x c hx hc) hc
    | panicked => rw [hcc] at h; simp at h
    | outOfFuel => rw [hcc] at h; simp at h

/-- The scan loop never panics when every declared chip is present in the
map it starts from. -/
theorem scan_chips_no_panic (storage : Storage) (fuel : Nat) :
    ∀ (chips : List String) (m : ChipMap) (log : List String),
      (∀ c ∈ chips, (getChip m c).isSome = true) →
      scan_chips storage fuel chips m log ≠ .panicked := by
  intro chips
  induction chips with
  | nil => intro m log _; simp [scan_chips]
  | cons c0 rest ih =>
    intro m log hpresent
    simp only [scan_chips]
    cases hcc : check_chip storage fuel c0 m log with
    | ok m1 log1 =>
      refine ih m1 log1 (fun c hc => ?_)
      exact (check_chip_keys storage fuel c0 m log).1 m1 log1 (Or.inr hcc) c
        (hpresent c (List.mem_cons_of_mem c0 hc))
    | err e m1 log1 =>
      refine ih m1 log1 (fun c hc => ?_)
      exact (check_chip_keys storage fuel c0 m log).1 m1 log1 (Or.inl ⟨e, hcc⟩) c
        (hpresent c (List.mem_cons_of_mem c0 hc))
    | panicked =>
      exact absurd hcc ((check_chip_keys storage fuel c0 m log).2
        (hpresent c0 (List.mem_cons_self c0 rest)))
    | outOfFuel => simp

/-- A name with no definition file evolves trivially through the whole
scan loop. -/
theorem scan_chips_dead_entry (storage : Storage) (fuel : Nat) (x : String)
    (hx : storage x = none) :
    ∀ (chips : List String) (m : ChipMap) (log : List String)
      (m' : ChipMap) (log' : List String),
      scan_chips storage fuel chips m log = .done m' log' →
      entryEvolves m m' x := by
  intro chips
  induction chips with
  | nil =>
    intro m log m' log' h
    simp only [scan_chips, LoopResult.done.injEq] at h
    exact h.1 ▸ entryEvolves_refl m x
  | cons c0 rest ih =>
    intro m log m' log' h
    simp only [scan_chips] at h
    cases hcc : check_chip storage fuel c0 m log with
    | ok m1 log1 =>
      rw [hcc] at h
      exact entryEvolves_trans
        (check_chip_dead_entry storage x hx fuel c0 m log m1 log1 (Or.inr hcc))
        (ih m1 log1 m' log' h)
    | err e m1 log1 =>
      rw [hcc] at h
      exact entryEvolves_trans
        (check_chip_dead_entry storage x hx fuel c0 m log m1 log1 (Or.inl ⟨e, hcc⟩))
        (ih m1 log1 m' log' h)
    | panicked => rw [hcc] at h; simp at h
    | outOfFuel => rw [hcc] at h; simp at h

theorem seedDeclared_preserves_some :
    ∀ (chips : List String) (m : ChipMap) (x : String) (c : Chip),
      getChip m x = some c → getChip (seedDeclared chips m) x = some c := by
  intro chips
  induction chips with
  | nil => intro m x c h; exact h
  | cons c0 rest ih =>
    intro m x c h
    simp only [seedDeclared, List.foldl_cons]
    exact ih (ensureChip m c0) x c (getChip_ensureChip_of_some m c0 x c h)

theorem seedDeclared_mem_isSome :
    ∀ (chips : List String) (m : ChipMap) (x : String), x ∈ chips →
      (getChip (seedDeclared chips m) x).isSome = true := by
  intro chips
  induction chips with
  | nil => intro m x h; simp at h
  | cons c0 rest ih =>
    intro m x h
    simp only [seedDeclared, List.foldl_cons]
    rcases List.mem_cons.mp h with rfl | hrest
    · cases hg : getChip (ensureChip m x) x with
      | none => rw [getChip_ensureChip_self m x] at hg; exact Option.noConfusion hg
      | some c =>
        have := seedDeclared_preserves_some rest (ensureChip m x) x c hg
        simp only [seedDeclared] at this
        rw [this]; rfl
    · exact ih (ensureChip m c0) x hrest

theorem seedDeclared_creates :
    ∀ (chips : List String) (m : ChipMap) (x : String), x ∈ chips →
      getChip m x = none →
      getChip (seedDeclared chips m) x = some Chip.default := by
  intro chips
  induction chips with
  | nil => intro m x h; simp at h
  | cons c0 rest ih =>
    intro m x hmem hnone
    simp only [seedDeclared, List.foldl_cons]
    by_cases hc0 : x = c0
    · subst hc0
      have hens : getChip (ensureChip m x) x = some Chip.default := by
        rw [getChip_ensureChip_self m x, hnone]; rfl
      have := seedDeclared_preserves_some rest (ensureChip m x) x Chip.default hens
      simpa [seedDeclared] using this
    · have hrest : x ∈ rest := by
        rcases List.mem_cons.mp hmem with h | h
        · exact absurd h hc0
        · exact h
      exact ih (ensureChip m c0) x hrest
        (by rw [getChip_ensureChip_ne m c0 x hc0]; exact hnone)

theorem mem_insertChip :
    ∀ (m : ChipMap) (k : String) (c : Chip) (p : String × Chip),
      p ∈ insertChip m k c → p ∈ m ∨ p = (k, c) := by
  intro m
  induction m with
  | nil =>
    intro k c p hp
    simp only [insertChip] at hp
    exact Or.inr (List.mem_singleton.mp hp)
  | cons q rest ih =>
    intro k c p hp
    obtain ⟨k0, c0⟩ := q
    by_cases hk : k0 = k
    · subst hk
      simp only [insertChip, if_pos rfl] at hp
      rcases List.mem_cons.mp hp with h | h
      · exact Or.inr h
      · exact Or.inl (List.mem_cons_of_mem _ h)
    · simp only [insertChip, if_neg hk] at hp
      rcases List.mem_cons.mp hp with h | h
      · exact Or.inl (h ▸ List.mem_cons_self _ _)
      · rcases ih k c p h with h' | h'
        · exact Or.inl (List.mem_cons_of_mem _ h')
        · exact Or.inr h'

theorem filter_nand_insertChip (m : ChipMap) (k : String) (c : Chip)
    (hk : ¬(k = "NAND")) :
    (insertChip m k c).filter (fun p => p.1 == "NAND") =
      m.filter (fun p => p.1 == "NAND") := by
  induction m with
  | nil =>
    simp only [insertChip, List.filter]
    rw [show ((k, c).1 == "NAND") = false by simpa using hk]
  | cons q rest ih =>
    obtain ⟨k0, c0⟩ := q
    by_cases hk0 : k0 = k
    · subst hk0
      simp only [insertChip, if_pos rfl, List.filter]
      rw [show ((k0, c).1 == "NAND") = false by simpa using hk]
    · simp only [insertChip, if_neg hk0, List.filter]
      cases hq : ((k0, c0).1 == "NAND") with
      | true => rw [ih]
      | false => exact ih

theorem PrimInv_insert (m : ChipMap) (k : String) (c : Chip)
    (hk1 : k ∉ BUILTIN_CHIPS) (hk2 : ¬(k = "NAND")) (h : PrimInv m) :
    PrimInv (insertChip m k c) := by
  refine ⟨?_, ?_, ?_, ?_⟩
  · intro b hb
    have hbk : b ≠ k := by
      intro hq
      rw [hq] at hb
      exact hk1 hb
    rw [getChip_insertChip_ne _ _ _ _ hbk]
    exact h.1 b hb
  · intro p hp hpb
    rcases mem_insertChip m k c p hp with h' | h'
    · exact h.2.1 p h' hpb
    · rw [h'] at hpb
      exact absurd hpb hk1
  · rw [filter_nand_insertChip m k c hk2]
    exact h.2.2.1
  · rw [getChip_insertChip_ne _ _ _ _ (fun hq => hk2 hq.symm)]
    exact h.2.2.2

theorem PrimInv_ensure (m : ChipMap) (name : String) (h : PrimInv m) :
    PrimInv (ensureChip m name) := by
  cases hg : getChip m name with
  | some c => rw [ensureChip_eq_of_some m name c hg]; exact h
  | none =>
    rw [ensureChip_eq_of_none m name hg]
    have hnn : ¬(name = "NAND") := by
      intro hq
      rw [hq, h.2.2.2] at hg
      exact Option.noConfusion hg
    have hnb : name ∉ BUILTIN_CHIPS := by
      intro hb
      rw [h.1 name hb] at hg
      exact Option.noConfusion hg
    exact PrimInv_insert m name Chip.default hnb hnn h

theorem memoHit_of_PrimInv_builtin {m : ChipMap} {b : String} (h : PrimInv m)
    (hb : b ∈ BUILTIN_CHIPS) : memoHit m b = true := by
  rw [memoHit, h.1 b hb]

theorem memoHit_of_PrimInv_nand {m : ChipMap} (h : PrimInv m) :
    memoHit m "NAND" = true := by
  rw [memoHit, h.2.2.2]

theorem check_subs_PrimInv (recur : String → ChipMap → List String → Outcome)
    (Hrec : ∀ n m0 log0 m1 log1,
      ((∃ e, recur n m0 log0 = .err e m1 log1) ∨ recur n m0 log0 = .ok m1 log1) →
      PrimInv m0 → PrimInv m1) :
    ∀ (l : List SubEntry) (chip : String) (m : ChipMap) (log : List String)
      (t : Nat) (m' : ChipMap) (log' : List String),
      ((∃ e, check_subs recur chip l m log t = .err e m' log') ∨
        (∃ t', check_subs recur chip l m log t = .ok m' log' t')) →
      PrimInv m → PrimInv m' := by
  intro l
  induction l with
  | nil =>
    intro chip m log t m' log' hres hm
    rcases hres with ⟨e, he⟩ | ⟨t', ho⟩
    · simp [check_subs] at he
    · simp only [check_subs, SubsOutcome.ok.injEq] at ho
      exact ho.1 ▸ hm
  | cons s rest ih =>
    cases s with
    | unnamed =>
      intro chip m log t m' log' hres hm
      rcases hres with ⟨e, he⟩ | ⟨t', ho⟩
      · simp only [check_subs, SubsOutcome.err.injEq] at he
        exact he.2.1 ▸ hm
      · simp [check_subs] at ho
    | named name =>
      intro chip m log t m' log' hres hm
      have hm1 : PrimInv (ensureChip m name) := PrimInv_ensure m name hm
      have hself := getChip_ensureChip_self m name
      simp only [check_subs, hself] at hres
      by_cases hchk : ((getChip m name).getD Chip.default).checked
      · rw [if_pos hchk] at hres
        exact ih chip (ensureChip m name) log _ m' log' hres hm1
      · rw [if_neg hchk] at hres
        cases hrec : recur name (ensureChip m name) log with
        | ok m2 log2 =>
          rw [hrec] at hres
          dsimp only at hres
          have hm2 : PrimInv m2 :=
            Hrec name (ensureChip m name) log m2 log2 (Or.inr hrec) hm1
          cases hg2 : getChip m2 name with
          | none =>
            rw [hg2] at hres
            rcases hres with ⟨e, he⟩ | ⟨t', ho⟩
            · simp at he
            · simp at ho
          | some c2 =>
            rw [hg2] at hres
            exact ih chip m2 log2 _ m' log' hres hm2
        | err e m2 log2 =>
          rw [hrec] at hres
          dsimp only at hres
          rcases hres with ⟨e', he⟩ | ⟨t', ho⟩
          · simp only [SubsOutcome.err.injEq] at he
            exact he.2.1 ▸ Hrec name (ensureChip m name) log m2 log2
              (Or.inl ⟨e, hrec⟩) hm1
          · simp at ho
        | panicked =>
          rw [hrec] at hres
          rcases hres with ⟨e, he⟩ | ⟨t', ho⟩
          · simp at he
          · simp at ho
        | outOfFuel =>
          rw [hrec] at hres
          rcases hres with ⟨e, he⟩ | ⟨t', ho⟩
          · simp at he
          · simp at ho

/-- Every terminating `check_chip` call preserves the primitive-catalog
invariant: built-ins and NAND keep their fixed entries, and no entry with
a primitive key is ever created or rewritten. -/
theorem check_chip_PrimInv (storage : Storage) :
    ∀ (fuel : Nat) (chip : String) (m : ChipMap) (log : List String)
      (m' : ChipMap) (log' : List String),
      ((∃ e, check_chip storage fuel chip m log = .err e m' log') ∨
        check_chip storage fuel chip m log = .ok m' log') →
      PrimInv m → PrimInv m' := by
  intro fuel
  induction fuel with
  | zero =>
    intro chip m log m' log' hres hm
    rcases hres with ⟨e, he⟩ | ho
    · simp [check_chip_zero] at he
    · simp [check_chip_zero] at ho
  | succ fuel ih =>
    intro chip m log m' log' hres hm
    cases hmh : memoHit m chip with
    | true =>
      rw [check_chip_memoTrue storage fuel chip m log hmh] at hres
      rcases hres with ⟨e, he⟩ | ho
      · simp at he
      · simp only [Outcome.ok.injEq] at ho
        exact ho.1 ▸ hm
    | false =>
      have hchipb : chip ∉ BUILTIN_CHIPS := by
        intro hb
        rw [memoHit_of_PrimInv_builtin hm hb] at hmh
        exact Bool.noConfusion hmh
      have hchipn : ¬(chip = "NAND") := by
        intro hq
        rw [hq, memoHit_of_PrimInv_nand hm] at hmh
        exact Bool.noConfusion hmh
      cases hst : storage chip with
      | none =>
        rw [check_chip_fileNotFound storage fuel chip m log hmh hst] at hres
        rcases hres with ⟨e, he⟩ | ho
        · simp only [Outcome.err.injEq] at he
          exact he.2.1 ▸ hm
        · simp at ho
      | some fc =>
        cases fc with
        | unreadable =>
          rw [check_chip_unreadable storage fuel chip m log hmh hst] at hres
          rcases hres with ⟨e, he⟩ | ho
          · simp only [Outcome.err.injEq] at he
            exact he.2.1 ▸ hm
          · simp at ho
        | unparseable =>
          rw [check_chip_unparseable storage fuel chip m log hmh hst] at hres
          rcases hres with ⟨e, he⟩ | ho
          · simp only [Outcome.err.injEq] at he
            exact he.2.1 ▸ hm
          · simp at ho
        | noSubChips =>
          rw [check_chip_noSubChips storage fuel chip m log hmh hst] at hres
          rcases hres with ⟨e, he⟩ | ho
          · simp only [Outcome.err.injEq] at he
            exact he.2.1 ▸ hm
          · simp at ho
        | subChips subs =>
          rw [check_chip_subChips storage fuel chip m log subs hmh hst] at hres
          have Hrec : ∀ n m0 log0 m1 log1,
              ((∃ e, check_chip storage fuel n m0 log0 = .err e m1 log1) ∨
                check_chip storage fuel n m0 log0 = .ok m1 log1) →
              PrimInv m0 → PrimInv m1 :=
            fun n m0 log0 m1 log1 h => ih n m0 log0 m1 log1 h
          cases hsub : check_subs
              (fun n m0 log0 => check_chip storage fuel n m0 log0)
              chip subs m (log ++ [chip]) 0 with
          | ok m2 log2 total =>
            rw [hsub] at hres
            dsimp only at hres
            have hm2 : PrimInv m2 :=
              check_subs_PrimInv _ Hrec subs chip m (log ++ [chip]) 0 m2 log2
                (Or.inr ⟨total, hsub⟩) hm
            cases hg : getChip m2 chip with
            | none =>
              rw [hg] at hres
              rcases hres with ⟨e, he⟩ | ho
              · simp at he
              · simp at ho
            | some c0 =>
              rw [hg] at hres
              rcases hres with ⟨e, he⟩ | ho
              · simp at he
              · simp only [Outcome.ok.injEq] at ho
                exact ho.1 ▸ PrimInv_insert m2 chip ⟨total, true⟩ hchipb hchipn hm2
          | err e m2 log2 =>
            rw [hsub] at hres
            dsimp only at hres
            rcases hres with ⟨e', he⟩ | ho
            · simp only [Outcome.err.injEq] at he
              exact he.2.1 ▸ check_subs_PrimInv _ Hrec subs chip m (log ++ [chip])
                0 m2 log2 (Or.inl ⟨e, hsub⟩) hm
            · simp at ho
          | panicked =>
            rw [hsub] at hres
            rcases hres with ⟨e, he⟩ | ho
            · simp at he
            · simp at ho
          | outOfFuel =>
            rw [hsub] at hres
            rcases hres with ⟨e, he⟩ | ho
            · simp at he
            · simp at ho

theorem scan_chips_PrimInv (storage : Storage) (fuel : Nat) :
    ∀ (chips : List String) (m : ChipMap) (log : List String)
      (m' : ChipMap) (log' : List String),
      scan_chips storage fuel chips m log = .done m' log' →
      PrimInv m → PrimInv m' := by
  intro chips
  induction chips with
  | nil =>
    intro m log m' log' h hm
    simp only [scan_chips, LoopResult.done.injEq] at h
    exact h.1 ▸ hm
  | cons c0 rest ih =>
    intro m log m' log' h hm
    simp only [scan_chips] at h
    cases hcc : check_chip storage fuel c0 m log with
    | ok m1 log1 =>
      rw [hcc] at h
      exact ih m1 log1 m' log' h
        (check_chip_PrimInv storage fuel c0 m log m1 log1 (Or.inr hcc) hm)
    | err e m1 log1 =>
      rw [hcc] at h
      exact ih m1 log1 m' log' h
        (check_chip_PrimInv storage fuel c0 m log m1 log1 (Or.inl ⟨e, hcc⟩) hm)
    | panicked => rw [hcc] at h; simp at h
    | outOfFuel => rw [hcc] at h; simp at h

theorem seedDeclared_PrimInv :
    ∀ (chips : List String) (m : ChipMap), PrimInv m →
      PrimInv (seedDeclared chips m) := by
  intro chips
  induction chips with
  | nil => intro m h; exact h
  | cons c0 rest ih =>
    intro m h
    simp only [seedDeclared, List.foldl_cons]
    exact ih (ensureChip m c0) (PrimInv_ensure m c0 h)

theorem PrimInv_add_default : PrimInv (add_default_chips []) := by
  refine ⟨by decide, by decide, by decide, by decide⟩

theorem totalNand_decomp (m : ChipMap) :
    totalNand m = specTotalNonPrimitive m + builtinSum m + nandKeySum m := by
  induction m with
  | nil => rfl
  | cons p rest ih =>
    simp only [totalNand, specTotalNonPrimitive, builtinSum, nandKeySum,
      List.map_cons, List.sum_cons] at ih ⊢
    cases hb : BUILTIN_CHIPS.contains p.1 with
    | true =>
      have hb' : p.1 ∈ BUILTIN_CHIPS := by simpa using hb
      rw [List.filter_cons_of_neg (by simp [hb']),
        List.filter_cons_of_pos (by simp [hb']),
        List.filter_cons_of_neg (by simp [hb']),
        List.map_cons, List.sum_cons]
      omega
    | false =>
      have hb' : p.1 ∉ BUILTIN_CHIPS := by simpa using hb
      cases hn : (p.1 == "NAND") with
      | true =>
        have hn' : p.1 = "NAND" := by simpa using hn
        rw [List.filter_cons_of_neg (by simp [hb', hn']),
          List.filter_cons_of_neg (by simp [hb']),
          List.filter_cons_of_pos (by simp [hb', hn']; decide),
          List.map_cons, List.sum_cons]
        omega
      | false =>
        have hn' : ¬(p.1 = "NAND") := by simpa using hn
        rw [List.filter_cons_of_pos (by simp [hb', hn']),
          List.filter_cons_of_neg (by simp [hb']),
          List.filter_cons_of_neg (by simp [hb', hn']),
          List.map_cons, List.sum_cons]
        omega

theorem builtinSum_eq_zero (m : ChipMap)
    (h : ∀ p ∈ m, p.1 ∈ BUILTIN_CHIPS → p.2 = ⟨0, true⟩) :
    builtinSum m = 0 := by
  refine List.sum_eq_zero (fun x hx => ?_)
  rcases List.mem_map.mp hx with ⟨p, hp, hfp⟩
  rcases List.mem_filter.mp hp with ⟨hpm, hpc⟩
  have hmem : p.1 ∈ BUILTIN_CHIPS := by simpa using hpc
  rw [← hfp, h p hpm hmem]

theorem nandKeySum_eq_one (m : ChipMap) (h : PrimInv m) : nandKeySum m = 1 := by
  have hpred : (fun p : String × Chip =>
      !(BUILTIN_CHIPS.contains p.1) && p.1 == "NAND") =
      (fun p : String × Chip => p.1 == "NAND") := by
    funext p
    cases hn : (p.1 == "NAND") with
    | true =>
      have hp1 : p.1 = "NAND" := by simpa using hn
      rw [hp1]
      decide
    | false => simp
  rw [nandKeySum, hpred, h.2.2.1]
  rfl

/-- Displayed total of any map satisfying the primitive-catalog invariant:
the built-in entries contribute 0, the single NAND entry contributes 1,
and everything else is the non-primitive (user-defined) sum. -/
theorem totalNand_of_PrimInv (m : ChipMap) (h : PrimInv m) :
    totalNand m = specTotalNonPrimitive m + 1 := by
  rw [totalNand_decomp m, builtinSum_eq_zero m h.2.1, nandKeySum_eq_one m h]

theorem getChip_foldl_insert_ne (v : Chip) :
    ∀ (names : List String) (m : ChipMap) (x : String), x ∉ names →
      getChip (names.foldl (fun acc n => insertChip acc n v) m) x = getChip m x := by
  intro names
  induction names with
  | nil => intro m x _; rfl
  | cons n rest ih =>
    intro m x hx
    have hxn : x ≠ n := fun hq => hx (hq ▸ List.mem_cons_self n rest)
    have hxr : x ∉ rest := fun hr => hx (List.mem_cons_of_mem n hr)
    simp only [List.foldl_cons]
    rw [ih (insertChip m n v) x hxr, getChip_insertChip_ne _ _ _ _ hxn]

theorem getChip_foldl_insert_mem (v : Chip) :
    ∀ (names : List String) (m : ChipMap) (x : String), names.Nodup →
      x ∈ names →
      getChip (names.foldl (fun acc n => insertChip acc n v) m) x = some v := by
  intro names
  induction names with
  | nil => intro m x _ hx; simp at hx
  | cons n rest ih =>
    intro m x hnd hx
    simp only [List.foldl_cons]
    rcases List.mem_cons.mp hx with rfl | hrest
    · have hxr : x ∉ rest := (List.nodup_cons.mp hnd).1
      rw [getChip_foldl_insert_ne v rest _ x hxr, getChip_insertChip_self]
    · exact ih (insertChip m n v) x (List.nodup_cons.mp hnd).2 hrest

theorem getChip_add_default_nand (m : ChipMap) :
    getChip (add_default_chips m) "NAND" = some ⟨1, true⟩ := by
  rw [add_default_chips,
    getChip_foldl_insert_ne ⟨0, true⟩ BUILTIN_CHIPS _ "NAND" (by decide),
    getChip_insertChip_self]

theorem getChip_add_default_builtin (m : ChipMap) (b : String)
    (hb : b ∈ BUILTIN_CHIPS) :
    getChip (add_default_chips m) b = some ⟨0, true⟩ :=
  getChip_foldl_insert_mem ⟨0, true⟩ BUILTIN_CHIPS _ b (by decide) hb

theorem getChip_add_default_none (x : String)
    (hx : x ∉ "NAND" :: BUILTIN_CHIPS) :
    getChip (add_default_chips []) x = none := by
  have hxb : x ∉ BUILTIN_CHIPS := fun h => hx (List.mem_cons_of_mem _ h)
  have hxn : x ≠ "NAND" := fun h => hx (h ▸ List.mem_cons_self _ _)
  rw [add_default_chips, getChip_foldl_insert_ne ⟨0, true⟩ BUILTIN_CHIPS _ x hxb,
    getChip_insertChip_ne _ _ _ _ hxn]
  rfl

theorem memoHit_add_default (m : ChipMap) (b : String)
    (hb : b ∈ "NAND" :: BUILTIN_CHIPS) :
    memoHit (add_default_chips m) b = true := by
  rcases List.mem_cons.mp hb with rfl | hb'
  · rw [memoHit, getChip_add_default_nand]
  · rw [memoHit, getChip_add_default_builtin m b hb']

/-- Elimination principle for a successful project scan: it pins down the
metadata shape, the version gate, the declared chips, and the final map,
exactly following the source's control flow. -/
theorem scan_project_ok_elim (storage : Storage) (fuel : Nat) (p : String)
    (meta : MetaFile) (r : ProjectScanResult)
    (h : scan_project storage fuel p meta = .ok r) :
    ∃ pm v m2 log2, meta = .parsed pm ∧ pm.earliestCompatible = some v ∧
      semverGt v supportedCeiling = false ∧ (metaChips pm).isEmpty = false ∧
      scan_chips storage fuel (metaChips pm)
        (seedDeclared (metaChips pm) (add_default_chips [])) [] = .done m2 log2 ∧
      r = ⟨p, m2, totalNand m2⟩ := by
  cases meta with
  | absent => simp [scan_project] at h
  | unreadable => simp [scan_project] at h
  | unparseable => simp [scan_project] at h
  | parsed pm =>
    cases hv : pm.earliestCompatible with
    | none => simp [scan_project, hv] at h
    | some v =>
      cases hgt : semverGt v supportedCeiling with
      | true => simp [scan_project, hv, hgt] at h
      | false =>
        cases hemp : (metaChips pm).isEmpty with
        | true => simp [scan_project, hv, hgt, hemp] at h
        | false =>
          simp only [scan_project, hv, hgt, hemp] at h
          simp only [Bool.false_eq_true, if_false] at h
          cases hsc : scan_chips storage fuel (metaChips pm)
              (seedDeclared (metaChips pm) (add_default_chips [])) [] with
          | done m2 log2 =>
            rw [hsc] at h
            dsimp only at h
            simp only [ScanOutcome.ok.injEq] at h
            exact ⟨pm, v, m2, log2, rfl, hv, hgt, hemp, hsc, h.symm⟩
          | panicked => rw [hsc] at h; simp at h
          | outOfFuel => rw [hsc] at h; simp at h

/-- A successful project scan's displayed total is the sum over every
entry of its final graph, and the final graph satisfies the
primitive-catalog invariant. -/
theorem scan_project_ok_total (storage : Storage) (fuel : Nat) (p : String)
    (meta : MetaFile) (r : ProjectScanResult)
    (h : scan_project storage fuel p meta = .ok r) :
    r.total_nand = totalNand r.chip_map ∧ PrimInv r.chip_map := by
  rcases scan_project_ok_elim storage fuel p meta r h with
    ⟨pm, v, m2, log2, _, _, _, _, hsc, hr⟩
  have hprim : PrimInv m2 :=
    scan_chips_PrimInv storage fuel (metaChips pm) _ [] m2 log2 hsc
      (seedDeclared_PrimInv (metaChips pm) _ PrimInv_add_default)
  rw [hr]
  exact ⟨rfl, hprim⟩

/-- The project scanner never hits the `.unwrap()` panic in `check_chip`:
every declared chip is inserted into the map before resolution begins. -/
theorem scan_project_never_panics (storage : Storage) (fuel : Nat)
    (p : String) (meta : MetaFile) :
    scan_project storage fuel p meta ≠ .panicked := by
  cases meta with
  | absent => simp [scan_project]
  | unreadable => simp [scan_project]
  | unparseable => simp [scan_project]
  | parsed pm =>
    cases hv : pm.earliestCompatible with
    | none => simp [scan_project, hv]
    | some v =>
      cases hgt : semverGt v supportedCeiling with
      | true => simp [scan_project, hv, hgt]
      | false =>
        cases hemp : (metaChips pm).isEmpty with
        | true => simp [scan_project, hv, hgt, hemp]
        | false =>
          simp only [scan_project, hv, hgt, hemp]
          simp only [Bool.false_eq_true, if_false]
          cases hsc : scan_chips storage fuel (metaChips pm)
              (seedDeclared (metaChips pm) (add_default_chips [])) [] with
          | done m2 log2 => simp
          | panicked =>
            exact absurd hsc (scan_chips_no_panic storage fuel (metaChips pm) _ []
              (fun c hc => seedDeclared_mem_isSome (metaChips pm) _ c hc))
          | outOfFuel => simp

/-- One step of the scan loop over a failing chip: the error is caught and
the loop continues with the remaining declared chips from the failed
call's map and log. -/
theorem scan_chips_cons_err (storage : Storage) (fuel : Nat) (c : String)
    (rest : List String) (m : ChipMap) (log : List String) (e : ChipError)
    (m1 : ChipMap) (log1 : List String)
    (h : check_chip storage fuel c m log = .err e m1 log1) :
    scan_chips storage fuel (c :: rest) m log =
      scan_chips storage fuel rest m1 log1 := by
  simp [scan_chips, h]

/-- A declared, non-primitive chip whose definition file is missing ends
the scan exactly as its seeded placeholder: `gate_count = 0`,
`resolved = false`. -/
theorem scan_project_dead_chip (storage : Storage) (fuel : Nat) (p : String)
    (pm : ProjectMeta) (r : ProjectScanResult) (x : String)
    (h : scan_project storage fuel p (.parsed pm) = .ok r)
    (hdecl : x ∈ metaChips pm) (hx : storage x = none)
    (hprim : x ∉ "NAND" :: BUILTIN_CHIPS) :
    getChip r.chip_map x = some ⟨0, false⟩ := by
  rcases scan_project_ok_elim storage fuel p (.parsed pm) r h with
    ⟨pm', v, m2, log2, hpm, _, _, _, hsc, hr⟩
  have hpm' : pm' = pm := by injection hpm with h0; exact h0.symm
  subst hpm'
  have hm1 : getChip (seedDeclared (metaChips pm') (add_default_chips [])) x =
      some Chip.default :=
    seedDeclared_creates (metaChips pm') _ x hdecl (getChip_add_default_none x hprim)
  have hev : entryEvolves (seedDeclared (metaChips pm') (add_default_chips []))
      m2 x :=
    scan_chips_dead_entry storage fuel x hx (metaChips pm') _ [] m2 log2 hsc
  rw [hr]
  rcases hev with hev | ⟨hnone, _⟩
  · rw [hev, hm1]; rfl
  · rw [hm1] at hnone; exact Option.noConfusion hnone

theorem check_chip_err_memoFalse (storage : Storage) (fuel : Nat)
    (chip : String) (m : ChipMap) (log : List String) (e : ChipError)
    (m' : ChipMap) (log' : List String)
    (h : check_chip storage fuel chip m log = .err e m' log') :
    memoHit m chip = false := by
  cases fuel with
  | zero => simp [check_chip_zero] at h
  | succ fuel =>
    cases hmh : memoHit m chip with
    | true =>
      rw [check_chip_memoTrue storage fuel chip m log hmh] at h
      exact absurd h (by simp)
    | false => rfl

theorem storageDiamond_dag :
    ∀ n ls, storageDiamond n = some (.subChips ls) →
      ∀ x ∈ subNames ls, rankDiamond x < rankDiamond n := by
  intro n ls h x hx
  unfold storageDiamond at h
  split_ifs at h with h1 h2 h3 h4
  · subst h1
    injection h with h'
    injection h' with h''
    subst h''
    rcases (by simpa [subNames] using hx : x = "B" ∨ x = "C") with rfl | rfl <;> decide
  · subst h2
    injection h with h'
    injection h' with h''
    subst h''
    rcases (by simpa [subNames] using hx : x = "D") with rfl
    decide
  · subst h3
    injection h with h'
    injection h' with h''
    subst h''
    rcases (by simpa [subNames] using hx : x = "D") with rfl
    decide
  · subst h4
    injection h with h'
    injection h' with h''
    subst h''
    rcases (by simpa [subNames] using hx : x = "NAND") with rfl
    decide

/-- C1: for every chip actually resolved by `check_chip` (memo miss
followed by success), the committed `gate_count` equals the sum of the
final gate counts of the sub-chip occurrences in its definition's
`SubChips` list, in declared order, counting a repeated reference once per
occurrence; a chip with sub-chips `[A, A]` (where `A → {NAND}`) gets
`gate_count = 2 = 2 * gate_count A`, and a chip whose only sub-chip is
NAND gets `gate_count = 1`. -/
theorem C1_gate_count_is_subchip_sum :
    (∀ (storage : Storage) (fuel : Nat) (chip : String) (m : ChipMap)
      (log : List String) (m' : ChipMap) (log' : List String)
      (l : List SubEntry),
      storage chip = some (.subChips l) →
      memoHit m chip = false →
      check_chip storage fuel chip m log = .ok m' log' →
      getChip m' chip = some ⟨sumSubs m' l, true⟩) ∧
    ((check_chip storageTwice 10 "P"
        (seedDeclared ["P"] (add_default_chips [])) []).entryOf "P" =
      some ⟨2, true⟩ ∧
      (check_chip storageTwice 10 "P"
        (seedDeclared ["P"] (add_default_chips [])) []).entryOf "A" =
      some ⟨1, true⟩ ∧ (2 : Nat) = 2 * 1) ∧
    (check_chip storageSingle 10 "X"
        (seedDeclared ["X"] (add_default_chips [])) []).entryOf "X" =
      some ⟨1, true⟩ := by
  refine ⟨?_, by decide, by decide⟩
  intro storage fuel chip m log m' log' l hst hmh h
  exact (check_chip_resolved_sum storage fuel chip m log m' log' l hst hmh h).2

theorem C1_gate_count_is_subchip_sum_witness :
    getChip ((check_chip storageSingle 10 "X"
        (seedDeclared ["X"] (add_default_chips [])) []).mapOf.getD []) "X" =
      some ⟨sumSubs ((check_chip storageSingle 10 "X"
        (seedDeclared ["X"] (add_default_chips [])) []).mapOf.getD [])
        [.named "NAND"], true⟩ :=
  C1_gate_count_is_subchip_sum.1 storageSingle 10 "X"
    (seedDeclared ["X"] (add_default_chips [])) [] _ ["X"] [.named "NAND"]
    rfl (by decide) (by decide)

/-- C2: a `check_chip` call on a name whose entry is already checked
returns success immediately with the map and the read log untouched (zero
storage reads, `gate_count` unchanged); in the diamond
`A → {B, C}, B → {D}, C → {D}, D → {NAND}`, resolving `A` reads `D` from
storage exactly once and yields `gate_count A = 2`; and built-in
identifiers resolve from the seeded catalog without any storage read. -/
theorem C2_memoization :
    (∀ (storage : Storage) (fuel : Nat) (chip : String) (m : ChipMap)
      (log : List String) (c : Chip),
      getChip m chip = some c → c.checked = true →
      check_chip storage (fuel + 1) chip m log = .ok m log) ∧
    ((check_chip storageDiamond 10 "A"
        (seedDeclared ["A"] (add_default_chips [])) []).logOf.map
        (fun L => L.count "D") = some 1 ∧
      (check_chip storageDiamond 10 "A"
        (seedDeclared ["A"] (add_default_chips [])) []).entryOf "A" =
      some ⟨2, true⟩) ∧
    (∀ (storage : Storage) (fuel : Nat) (log : List String) (b : String),
      b ∈ "NAND" :: BUILTIN_CHIPS →
      check_chip storage (fuel + 1) b (add_default_chips []) log =
        .ok (add_default_chips []) log) := by
  refine ⟨?_, by decide, ?_⟩
  · intro storage fuel chip m log c hg hc
    exact check_chip_memoTrue storage fuel chip m log (by rw [memoHit, hg]; exact hc)
  · intro storage fuel log b hb
    exact check_chip_memoTrue storage fuel b _ log (memoHit_add_default [] b hb)

theorem C2_memoization_witness :
    check_chip (fun _ => none) 1 "NAND" (add_default_chips []) [] =
      .ok (add_default_chips []) [] ∧
    check_chip (fun _ => none) 1 "LED" (add_default_chips []) [] =
      .ok (add_default_chips []) [] :=
  ⟨C2_memoization.1 (fun _ => none) 0 "NAND" (add_default_chips []) []
      ⟨1, true⟩ (by decide) rfl,
    C2_memoization.2.2 (fun _ => none) 0 [] "LED" (by decide)⟩

/-- C3 counterexample: for the project with the single chip `X → {NAND}`,
the displayed total is 2 while the sum of `gate_count` over the entries
that are not built-in/primitive (user-defined chips only) is 1 — the
total as computed by the source is not the non-primitive sum, because the
NAND entry itself contributes its unit cost. -/
theorem C3_counterexample :
    (scan_project storageSingle 10 "P" metaSingle).totalOf = some 2 ∧
    (scan_project storageSingle 10 "P" metaSingle).resultOf.map
      (fun r => specTotalNonPrimitive r.chip_map) = some 1 ∧
    (scan_project storageSingle 10 "P" metaSingle).totalOf ≠
      (scan_project storageSingle 10 "P" metaSingle).resultOf.map
        (fun r => specTotalNonPrimitive r.chip_map) := by
  refine ⟨by decide, by decide, by decide⟩

/-- C3 as amended: for every `ProjectScanResult` returned by
`scan_project`, `total_nand` is the sum of `NAND_count` over all entries
of the final chip graph, built-ins included; the 18 built-ins contribute 0
each and the single NAND entry contributes exactly 1, so the displayed
total exceeds the user-defined-only sum by exactly 1. -/
theorem C3_total_is_full_sum (storage : Storage) (fuel : Nat) (p : String)
    (meta : MetaFile) (r : ProjectScanResult)
    (h : scan_project storage fuel p meta = .ok r) :
    r.total_nand = totalNand r.chip_map ∧
    r.total_nand = specTotalNonPrimitive r.chip_map + 1 ∧
    (∀ b ∈ BUILTIN_CHIPS, getChip r.chip_map b = some ⟨0, true⟩) ∧
    getChip r.chip_map "NAND" = some ⟨1, true⟩ := by
  rcases scan_project_ok_total storage fuel p meta r h with ⟨htot, hprim⟩
  exact ⟨htot, by rw [htot, totalNand_of_PrimInv r.chip_map hprim],
    hprim.1, hprim.2.2.2⟩

theorem C3_total_is_full_sum_witness :
    ((scan_project storageSingle 10 "P" metaSingle).resultOf.getD
        ⟨"", [], 0⟩).total_nand =
      totalNand ((scan_project storageSingle 10 "P" metaSingle).resultOf.getD
        ⟨"", [], 0⟩).chip_map ∧
    ((scan_project storageSingle 10 "P" metaSingle).resultOf.getD
        ⟨"", [], 0⟩).total_nand =
      specTotalNonPrimitive ((scan_project storageSingle 10 "P"
        metaSingle).resultOf.getD ⟨"", [], 0⟩).chip_map + 1 ∧
    (∀ b ∈ BUILTIN_CHIPS,
      getChip ((scan_project storageSingle 10 "P" metaSingle).resultOf.getD
        ⟨"", [], 0⟩).chip_map b = some ⟨0, true⟩) ∧
    getChip ((scan_project storageSingle 10 "P" metaSingle).resultOf.getD
      ⟨"", [], 0⟩).chip_map "NAND" = some ⟨1, true⟩ :=
  C3_total_is_full_sum storageSingle 10 "P" metaSingle _ (by decide)

/-- C4 counterexample: the chip `X` of `storageSelfAfterBad` transitively
references itself (its own name is its second sub-chip entry), yet
`check_chip` terminates on it: the first sub-chip `Y` has no definition
file, so resolution fails fast with `Y`'s error before the self-reference
is ever followed — refuting the claim that `check_chip` fails to
terminate on every transitively self-referencing chip. -/
theorem C4_counterexample :
    storageSelfAfterBad "X" = some (.subChips [.named "Y", .named "X"]) ∧
    (check_chip storageSelfAfterBad 5 "X" (add_default_chips []) []).errOf =
      some (.fileNotFound "Y") ∧
    check_chip storageSelfAfterBad 5 "X" (add_default_chips []) [] ≠
      .outOfFuel := by
  refine ⟨rfl, by decide, by decide⟩

/-- C4 as amended: `check_chip` terminates on every input whose sub-chip
reference graph is acyclic (witnessed by a rank function on names); and
when a cyclic reference chain is actually followed — here, each chip of a
cycle lists its successor first, so no earlier sibling can fail — the
recursion never reaches the memo-hit case and `check_chip` runs out of
every fuel bound, i.e. the unbounded Rust recursion never terminates.  An
error on an earlier sibling can still preempt the cycle and terminate. -/
theorem C4_termination :
    (∀ (storage : Storage) (rank : String → Nat),
      (∀ n ls, storage n = some (.subChips ls) →
        ∀ x ∈ subNames ls, rank x < rank n) →
      ∀ (fuel : Nat) (chip : String) (m : ChipMap) (log : List String),
        rank chip < fuel → check_chip storage fuel chip m log ≠ .outOfFuel) ∧
    (∀ (storage : Storage) (C : List String),
      (∀ c ∈ C, ∃ c' rest,
        storage c = some (.subChips (.named c' :: rest)) ∧ c' ∈ C) →
      ∀ (fuel : Nat) (chip : String) (m : ChipMap) (log : List String),
        chip ∈ C → (∀ c ∈ C, memoHit m c = false) →
        check_chip storage fuel chip m log = .outOfFuel) :=
  ⟨fun storage rank hdag => check_chip_dag_terminates storage rank hdag,
    fun storage C hcyc => check_chip_cycle_diverges storage C hcyc⟩

theorem C4_termination_witness :
    check_chip storageDiamond 4 "A" (add_default_chips []) [] ≠ .outOfFuel ∧
    check_chip storageSelfLoop 7 "L" (add_default_chips []) [] = .outOfFuel :=
  ⟨C4_termination.1 storageDiamond rankDiamond storageDiamond_dag 4 "A"
      (add_default_chips []) [] (by decide),
    C4_termination.2 storageSelfLoop ["L"]
      (fun c hc => by
        rcases List.mem_singleton.mp hc with rfl
        exact ⟨"L", [], rfl, List.mem_singleton.mpr rfl⟩)
      7 "L" (add_default_chips []) [] (List.mem_singleton.mpr rfl)
      (fun c hc => by rcases List.mem_singleton.mp hc with rfl; decide)⟩

/-- C5: the sub-chip loop fails fast — when the recursive resolution of a
sub-chip returns an error, that very error (with the failing call's map
and read log) is the loop's result no matter what sibling entries follow,
so no later sibling is examined and no further storage read happens; and
any erroring `check_chip` call leaves its own chip's entry unwritten (at
most created as the unresolved placeholder) and still unresolved: the sum
is committed with `resolved = true` only on full success. -/
theorem C5_fail_fast :
    (∀ (recur : String → ChipMap → List String → Outcome) (chip name : String)
      (rest : List SubEntry) (m : ChipMap) (log : List String) (t : Nat)
      (c : Chip) (e : ChipError) (m2 : ChipMap) (log2 : List String),
      getChip (ensureChip m name) name = some c → c.checked = false →
      recur name (ensureChip m name) log = .err e m2 log2 →
      check_subs recur chip (.named name :: rest) m log t = .err e m2 log2) ∧
    (∀ (storage : Storage) (fuel : Nat) (chip : String) (m : ChipMap)
      (log : List String) (e : ChipError) (m' : ChipMap) (log' : List String),
      check_chip storage fuel chip m log = .err e m' log' →
      entryEvolves m m' chip ∧ memoHit m' chip = false) := by
  constructor
  · intro recur chip name rest m log t c e m2 log2 hget hc hrec
    have hself := getChip_ensureChip_self m name
    rw [hself] at hget
    injection hget with hget
    simp only [check_subs, hself]
    rw [if_neg (by rw [← hget] at hc; simp [hc]), hrec]
  · intro storage fuel chip m log e m' log' h
    have hmh : memoHit m chip = false :=
      check_chip_err_memoFalse storage fuel chip m log e m' log' h
    have hstack := (check_chip_stack storage fuel [] chip m log
      (by simp) (by simp)).2 e m' log' h
    exact ⟨hstack.1, memoHit_eq_false_of_entryEvolves hstack.1 hmh⟩

theorem C5_fail_fast_witness :
    check_subs (fun n m0 log0 => check_chip storageSelfAfterBad 4 n m0 log0)
      "X" [.named "Y", .named "X"] (add_default_chips []) ["X"] 0 =
      .err (.fileNotFound "Y") (ensureChip (add_default_chips []) "Y")
        ["X", "Y"] ∧
    (entryEvolves (add_default_chips [])
        ((check_chip storageSelfAfterBad 5 "X"
          (add_default_chips []) []).mapOf.getD []) "X" ∧
      memoHit ((check_chip storageSelfAfterBad 5 "X"
        (add_default_chips []) []).mapOf.getD []) "X" = false) :=
  ⟨C5_fail_fast.1 (fun n m0 log0 => check_chip storageSelfAfterBad 4 n m0 log0)
      "X" "Y" [.named "X"] (add_default_chips []) ["X"] 0 Chip.default
      (.fileNotFound "Y") (ensureChip (add_default_chips []) "Y") ["X", "Y"]
      (by decide) rfl (by decide),
    C5_fail_fast.2 storageSelfAfterBad 5 "X" (add_default_chips []) []
      (.fileNotFound "Y") _ ["X", "Y"] (by decide)⟩

/-- C6: once a chip's entry has `resolved = true`, its `gate_count` never
changes for the remainder of the project scan — neither a later
`check_chip` call on that name or on any other chip, nor the rest of the
per-chip scan loop, rewrites the entry. -/
theorem C6_checked_entries_immutable :
    (∀ (storage : Storage) (fuel : Nat) (chip : String) (m : ChipMap)
      (log : List String) (m' : ChipMap) (log' : List String),
      ((∃ e, check_chip storage fuel chip m log = .err e m' log') ∨
        check_chip storage fuel chip m log = .ok m' log') →
      ∀ x c, getChip m x = some c → c.checked = true →
        getChip m' x = some c) ∧
    (∀ (storage : Storage) (fuel : Nat) (chips : List String) (m : ChipMap)
      (log : List String) (m' : ChipMap) (log' : List String),
      scan_chips storage fuel chips m log = .done m' log' →
      ∀ x c, getChip m x = some c → c.checked = true →
        getChip m' x = some c) :=
  ⟨fun storage fuel => check_chip_preserves_checked storage fuel,
    fun storage fuel => scan_chips_preserves_checked storage fuel⟩

theorem C6_checked_entries_immutable_witness :
    getChip ((check_chip storageSingle 10 "X"
        (seedDeclared ["X"] (add_default_chips [])) []).mapOf.getD [])
      "NAND" = some ⟨1, true⟩ :=
  C6_checked_entries_immutable.1 storageSingle 10 "X"
    (seedDeclared ["X"] (add_default_chips [])) [] _ ["X"]
    (Or.inr (by decide)) "NAND" ⟨1, true⟩ (by decide) rfl

/-- C7: on a not-yet-resolved name, `check_chip` fails with the
`DefinitionNotFound` error exactly when no definition file exists for that
name (forward: absent storage yields that error immediately; backward:
the error is only ever emitted, at any recursion depth, for a name whose
storage is absent); it fails with the `MalformedDefinition` errors when
the `SubChips` field is absent or not a sequence, or when the sub-chip
entry it reaches lacks a `Name` string; and primitive names never reach
the storage check, because they are pre-resolved in the seeded catalog. -/
theorem C7_error_classification :
    (∀ (storage : Storage) (fuel : Nat) (chip : String) (m : ChipMap)
      (log : List String), memoHit m chip = false → storage chip = none →
      check_chip storage (fuel + 1) chip m log =
        .err (.fileNotFound chip) m (log ++ [chip])) ∧
    (∀ (storage : Storage) (fuel : Nat) (chip : String) (m : ChipMap)
      (log : List String) (e : ChipError) (m' : ChipMap)
      (log' : List String) (x : String),
      check_chip storage fuel chip m log = .err e m' log' →
      e = .fileNotFound x → storage x = none) ∧
    (∀ (storage : Storage) (fuel : Nat) (chip : String) (m : ChipMap)
      (log : List String), memoHit m chip = false →
      storage chip = some .noSubChips →
      check_chip storage (fuel + 1) chip m log =
        .err (.subChipsMissing chip) m (log ++ [chip])) ∧
    (∀ (storage : Storage) (fuel : Nat) (chip : String) (m : ChipMap)
      (log : List String) (rest : List SubEntry), memoHit m chip = false →
      storage chip = some (.subChips (.unnamed :: rest)) →
      check_chip storage (fuel + 1) chip m log =
        .err (.entryMissingName chip) m (log ++ [chip])) ∧
    (∀ (storage : Storage) (fuel : Nat) (m : ChipMap) (log : List String)
      (b : String), b ∈ "NAND" :: BUILTIN_CHIPS →
      check_chip storage (fuel + 1) b (add_default_chips m) log =
        .ok (add_default_chips m) log) := by
  refine ⟨?_, ?_, ?_, ?_, ?_⟩
  · exact fun storage fuel chip m log hmh hst =>
      check_chip_fileNotFound storage fuel chip m log hmh hst
  · exact fun storage fuel chip m log e m' log' x h he =>
      check_chip_err_fileNotFound_storage storage fuel chip m log e m' log' x h he
  · exact fun storage fuel chip m log hmh hst =>
      check_chip_noSubChips storage fuel chip m log hmh hst
  · intro storage fuel chip m log rest hmh hst
    rw [check_chip_subChips storage fuel chip m log _ hmh hst]
    simp [check_subs]
  · intro storage fuel m log b hb
    exact check_chip_memoTrue storage fuel b _ log (memoHit_add_default m b hb)

theorem C7_error_classification_witness :
    check_chip storageSingle 1 "W" (add_default_chips []) [] =
      .err (.fileNotFound "W") (add_default_chips []) ["W"] ∧
    storageSelfAfterBad "Y" = none ∧
    check_chip (fun _ => some .noSubChips) 1 "W" (add_default_chips []) [] =
      .err (.subChipsMissing "W") (add_default_chips []) ["W"] ∧
    check_chip (fun _ => some (.subChips [.unnamed])) 1 "W"
      (add_default_chips []) [] =
      .err (.entryMissingName "W") (add_default_chips []) ["W"] ∧
    check_chip storageSingle 1 "NAND" (add_default_chips []) [] =
      .ok (add_default_chips []) [] :=
  ⟨C7_error_classification.1 storageSingle 0 "W" (add_default_chips []) []
      (by decide) rfl,
    C7_error_classification.2.1 storageSelfAfterBad 5 "X"
      (add_default_chips []) [] (.fileNotFound "Y")
      (ensureChip (add_default_chips []) "Y") ["X", "Y"] "Y" (by decide) rfl,
    C7_error_classification.2.2.1 (fun _ => some .noSubChips) 0 "W"
      (add_default_chips []) [] (by decide) rfl,
    C7_error_classification.2.2.2.1 (fun _ => some (.subChips [.unnamed])) 0
      "W" (add_default_chips []) [] [] (by decide) rfl,
    C7_error_classification.2.2.2.2 storageSingle 0 (add_default_chips [])
      [] "NAND" (by decide)⟩

/-- C8: `scan_project` skips (returns no result), with the matching
diagnostic, exactly under the source's conditions in source order:
metadata file absent; metadata unreadable; metadata not valid JSON;
declared earliest-compatible version strictly newer than the fixed ceiling
2.1.5 (this fires regardless of the chip list, showing it is tested before
the zero-chips check); version field absent or unparseable; zero declared
custom chips.  A project declaring exactly the ceiling version is never
skipped when it declares chips: the boundary is inclusive.  The version
comparison is strict semantic-version greater-than. -/
theorem C8_skip_conditions :
    (∀ (storage : Storage) (fuel : Nat) (p : String),
      scan_project storage fuel p .absent = .skip .missingMeta) ∧
    (∀ (storage : Storage) (fuel : Nat) (p : String),
      scan_project storage fuel p .unreadable = .skip .metaReadFailed) ∧
    (∀ (storage : Storage) (fuel : Nat) (p : String),
      scan_project storage fuel p .unparseable = .skip .metaParseFailed) ∧
    (∀ (storage : Storage) (fuel : Nat) (p : String) (pm : ProjectMeta)
      (v : SemVer), pm.earliestCompatible = some v →
      semverGt v supportedCeiling = true →
      scan_project storage fuel p (.parsed pm) = .skip .incompatibleVersion) ∧
    (∀ (storage : Storage) (fuel : Nat) (p : String) (pm : ProjectMeta),
      pm.earliestCompatible = none →
      scan_project storage fuel p (.parsed pm) = .skip .missingVersion) ∧
    (∀ (storage : Storage) (fuel : Nat) (p : String) (pm : ProjectMeta)
      (v : SemVer), pm.earliestCompatible = some v →
      semverGt v supportedCeiling = false → (metaChips pm).isEmpty = true →
      scan_project storage fuel p (.parsed pm) = .skip .noChips) ∧
    (∀ (storage : Storage) (fuel : Nat) (p : String) (pm : ProjectMeta),
      pm.earliestCompatible = some supportedCeiling →
      (metaChips pm).isEmpty = false →
      ∀ s, scan_project storage fuel p (.parsed pm) ≠ .skip s) ∧
    (semverGt supportedCeiling supportedCeiling = false ∧
      semverGt ⟨2, 1, 6⟩ supportedCeiling = true ∧
      semverGt ⟨2, 2, 0⟩ supportedCeiling = true ∧
      semverGt ⟨3, 0, 0⟩ supportedCeiling = true ∧
      semverGt ⟨2, 1, 4⟩ supportedCeiling = false ∧
      semverGt ⟨2, 0, 9⟩ supportedCeiling = false ∧
      supportedCeiling = ⟨2, 1, 5⟩) := by
  refine ⟨fun _ _ _ => rfl, fun _ _ _ => rfl, fun _ _ _ => rfl, ?_, ?_, ?_, ?_,
    by decide⟩
  · intro storage fuel p pm v hv hgt
    simp [scan_project, hv, hgt]
  · intro storage fuel p pm hv
    simp [scan_project, hv]
  · intro storage fuel p pm v hv hgt hemp
    simp [scan_project, hv, hgt, hemp]
  · intro storage fuel p pm hv hemp s
    have hgt : semverGt supportedCeiling supportedCeiling = false := by decide
    simp only [scan_project, hv, hgt, hemp]
    simp only [Bool.false_eq_true, if_false]
    cases hsc : scan_chips storage fuel (metaChips pm)
        (seedDeclared (metaChips pm) (add_default_chips [])) [] with
    | done m2 log2 => simp
    | panicked => simp
    | outOfFuel => simp

theorem C8_skip_conditions_witness :
    scan_project storageSingle 5 "P"
      (.parsed ⟨some ⟨3, 0, 0⟩, some []⟩) = .skip .incompatibleVersion ∧
    scan_project storageSingle 5 "P"
      (.parsed ⟨none, some []⟩) = .skip .missingVersion ∧
    scan_project storageSingle 5 "P"
      (.parsed ⟨some ⟨2, 1, 5⟩, none⟩) = .skip .noChips ∧
    scan_project storageSingle 5 "P"
      (.parsed ⟨some ⟨2, 1, 5⟩, some [some "X"]⟩) ≠ .skip .incompatibleVersion :=
  ⟨C8_skip_conditions.2.2.2.1 storageSingle 5 "P" ⟨some ⟨3, 0, 0⟩, some []⟩
      ⟨3, 0, 0⟩ rfl (by decide),
    C8_skip_conditions.2.2.2.2.1 storageSingle 5 "P" ⟨none, some []⟩ rfl,
    C8_skip_conditions.2.2.2.2.2.1 storageSingle 5 "P" ⟨some ⟨2, 1, 5⟩, none⟩
      ⟨2, 1, 5⟩ rfl (by decide) rfl,
    C8_skip_conditions.2.2.2.2.2.2.1 storageSingle 5 "P"
      ⟨some ⟨2, 1, 5⟩, some [some "X"]⟩ rfl rfl .incompatibleVersion⟩

/-- C9: a resolution error for one declared chip is caught, not
propagated: the scan loop continues with the remaining declared chips in
declaration order, carrying the failed call's map and log; a declared
non-primitive chip whose definition file is missing ends the scan as its
unresolved placeholder with `gate_count = 0`; and in the concrete project
declaring the broken `X` before `Y → {NAND, NAND}`, the scanner still
returns a result in which `Y` was resolved to 2 and the total counts
`X`'s placeholder 0. -/
theorem C9_per_chip_errors_caught :
    (∀ (storage : Storage) (fuel : Nat) (c : String) (rest : List String)
      (m : ChipMap) (log : List String) (e : ChipError) (m1 : ChipMap)
      (log1 : List String),
      check_chip storage fuel c m log = .err e m1 log1 →
      scan_chips storage fuel (c :: rest) m log =
        scan_chips storage fuel rest m1 log1) ∧
    (∀ (storage : Storage) (fuel : Nat) (p : String) (pm : ProjectMeta)
      (r : ProjectScanResult) (x : String),
      scan_project storage fuel p (.parsed pm) = .ok r →
      x ∈ metaChips pm → storage x = none → x ∉ "NAND" :: BUILTIN_CHIPS →
      getChip r.chip_map x = some ⟨0, false⟩) ∧
    ((scan_project storageBrokenX 10 "P" metaBrokenX).resultOf.map
      (fun r => (getChip r.chip_map "X", getChip r.chip_map "Y",
        r.total_nand)) = some (some ⟨0, false⟩, some ⟨2, true⟩, 3)) := by
  refine ⟨?_, ?_, by decide⟩
  · exact fun storage fuel c rest m log e m1 log1 h =>
      scan_chips_cons_err storage fuel c rest m log e m1 log1 h
  · exact fun storage fuel p pm r x h hd hx hp =>
      scan_project_dead_chip storage fuel p pm r x h hd hx hp

theorem C9_per_chip_errors_caught_witness :
    scan_chips storageBrokenX 10 ["X", "Y"]
      (seedDeclared ["X", "Y"] (add_default_chips [])) [] =
      scan_chips storageBrokenX 10 ["Y"]
        (seedDeclared ["X", "Y"] (add_default_chips [])) ["X"] ∧
    getChip ((scan_project storageBrokenX 10 "P" metaBrokenX).resultOf.getD
      ⟨"", [], 0⟩).chip_map "X" = some ⟨0, false⟩ :=
  ⟨C9_per_chip_errors_caught.1 storageBrokenX 10 "X" ["Y"]
      (seedDeclared ["X", "Y"] (add_default_chips [])) []
      (.fileNotFound "X") (seedDeclared ["X", "Y"] (add_default_chips []))
      ["X"] (by decide),
    C9_per_chip_errors_caught.2.1 storageBrokenX 10 "P"
      ⟨some ⟨2, 1, 5⟩, some [some "X", some "Y"]⟩ _ "X" (by decide)
      (by decide) rfl (by decide)⟩

/-- C10: under the program's call pattern the unchecked map lookups in
`check_chip` never panic — a `check_chip` call on a name present in the
map cannot produce the panic outcome, and `scan_project` (which inserts
every declared name before resolving, while `check_chip` inserts every
sub-chip name before recursing) can never produce it either; but calling
`check_chip` directly on a name absent from the map does panic at the
commit point's `get_mut(chip).unwrap()`. -/
theorem C10_unwrap_safety :
    (∀ (storage : Storage) (fuel : Nat) (chip : String) (m : ChipMap)
      (log : List String), containsChip m chip = true →
      check_chip storage fuel chip m log ≠ .panicked) ∧
    (∀ (storage : Storage) (fuel : Nat) (p : String) (meta : MetaFile),
      scan_project storage fuel p meta ≠ .panicked) ∧
    (∀ (storage : Storage) (fuel : Nat) (chip : String) (m : ChipMap)
      (log : List String), getChip m chip = none →
      storage chip = some (.subChips []) →
      check_chip storage (fuel + 1) chip m log = .panicked) := by
  refine ⟨?_, ?_, ?_⟩
  · intro storage fuel chip m log h
    exact (check_chip_keys storage fuel chip m log).2 h
  · exact fun storage fuel p meta =>
      scan_project_never_panics storage fuel p meta
  · intro storage fuel chip m log hnone hst
    have hmh : memoHit m chip = false := by rw [memoHit, hnone]
    rw [check_chip_subChips storage fuel chip m log [] hmh hst]
    simp [check_subs, hnone]

theorem C10_unwrap_safety_witness :
    check_chip storageSingle 10 "NAND" (add_default_chips []) [] ≠
      .panicked ∧
    scan_project storageSingle 10 "P" metaSingle ≠ .panicked ∧
    check_chip storageEmptyZ 5 "Z" [] [] = .panicked :=
  ⟨C10_unwrap_safety.1 storageSingle 10 "NAND" (add_default_chips []) []
      (by decide),
    C10_unwrap_safety.2.1 storageSingle 10 "P" metaSingle,
    C10_unwrap_safety.2.2 storageEmptyZ 4 "Z" [] [] rfl rfl⟩

end NandCounter
